import Mathlib

/-!
Shallow embedding of `src/libs/pso_nmf.cpp` (PSO-based H update for NMF).

Real numbers (`double`) are modelled as rationals; C++ `int` as `ℤ`.
The mt19937 engine together with the two `uniform_real_distribution`s is
modelled as an explicit draw stream `u : ℕ → ℚ`: draw number `n` of the run
is `u n`.  A `unif01` draw (line 70) is `u n` itself; an `initDist` draw
(line 71) is `lb + (ub - lb) * u n`.  The stream is determined by the seed,
so two runs with the same nonzero seed see the same stream.  Draws are
consumed strictly sequentially; the next unconsumed index is threaded
through the state (`rngIdx`).  The `verbose` progress print (lines 145-147)
does not touch optimizer state and is not modelled.  In the initialization
expression `(initDist(rng) - initDist(rng)) * 0.1` (line 104) C++11 leaves
the operand order unspecified; we fix left-operand-first — no claim below
depends on which of the two draws is subtracted from the other.
-/

namespace PSONMF

/-- Configuration mirroring `PSOConfig` (pso_nmf.cpp lines 20-30). -/
structure PSOConfig where
  population : ℤ := 30
  max_iters : ℤ := 500
  inertia : ℚ := 729 / 1000
  c1 : ℚ := 149445 / 100000
  c2 : ℚ := 149445 / 100000
  lb : ℚ := 0
  ub : ℚ := 10
  verbose : Bool := false
  seed : ℕ := 0
deriving DecidableEq

/-- A numpy array at the pybind11 boundary: a shape and a flat buffer
(`bufW.shape`, `bufW.ptr`, lines 45-58). -/
structure NpArray where
  shape : List ℕ
  data : ℕ → ℚ

/-- `pop` as computed at lines 65-66: `population`, floored at 2. -/
def popNat (cfg : PSOConfig) : ℕ :=
  (if cfg.population < 2 then (2 : ℤ) else cfg.population).toNat

/-- Number of rounds of the loop at line 116: `max_iters`, 0 when negative. -/
def itersNat (cfg : PSOConfig) : ℕ := cfg.max_iters.toNat

/-- Everything the optimizer core reads: the floored population, the round
count, the five real coefficients, the problem dimensions, the two matrices
as mapped by Eigen, and the draw stream.  `verbose` and `seed` do not enter
(the print has no effect on state; the seed acts only through the stream). -/
structure Ctx where
  pop : ℕ
  iters : ℕ
  inertia : ℚ
  c1 : ℚ
  c2 : ℚ
  lb : ℚ
  ub : ℚ
  g : ℕ
  k : ℕ
  s : ℕ
  W : ℕ → ℕ → ℚ
  X : ℕ → ℕ → ℚ
  u : ℕ → ℚ

/-- `dim = k * s` (line 64). -/
def dim (c : Ctx) : ℕ := c.k * c.s

/-- One particle (lines 74-78): position, velocity, personal best and its
cost, and the last evaluated cost. -/
structure Particle where
  pos : List ℚ
  vel : List ℚ
  pbestPos : List ℚ
  pbestCost : ℚ
  cost : ℚ
deriving DecidableEq

/-- Default particle used by out-of-range list reads in statements. -/
def pDef : Particle := ⟨[], [], [], 0, 0⟩

/-- Swarm-level shared state: `global_best_cost` (`none` models the initial
`+infinity` of line 81), `gbest_pos` (line 82), and the next unconsumed
stream index. -/
structure GState where
  gbestCost : Option ℚ
  gbestPos : List ℚ
  rngIdx : ℕ
deriving DecidableEq

structure SwarmState where
  particles : List Particle
  gs : GState
deriving DecidableEq

/-- A `unif01(rng)` draw (line 70) at stream position n. -/
def unif01 (c : Ctx) (n : ℕ) : ℚ := c.u n

/-- An `initDist(rng)` draw (line 71) at stream position n: uniform on
[lb, ub]. -/
def initDraw (c : Ctx) (n : ℕ) : ℚ := c.lb + (c.ub - c.lb) * c.u n

/-- Entry (i, j) of the candidate H assembled inside `eval_cost`
(lines 87-94): read flat index `j*k + i`, clamp from below at `lb` only. -/
def Hval (c : Ctx) (flatH : List ℚ) (i j : ℕ) : ℚ :=
  let v := flatH.getD (j * c.k + i) 0
  if v < c.lb then c.lb else v

/-- `eval_cost` (lines 85-98): squared Frobenius norm of `X - W * H`. -/
def eval_cost (c : Ctx) (flatH : List ℚ) : ℚ :=
  ∑ r ∈ Finset.range c.g, ∑ j ∈ Finset.range c.s,
    (c.X r j - ∑ t ∈ Finset.range c.k, c.W r t * Hval c flatH t j) ^ 2

/-- `x < gbestCost` where `none` is the initial +infinity (lines 109, 138). -/
def ltInf (x : ℚ) : Option ℚ → Bool
  | none => true
  | some b => decide (x < b)

/-- Initialize one particle (lines 101-113): per dimension one position draw
and two velocity draws, then one cost evaluation, then the conditional
global-best update. -/
def initP (c : Ctx) (gs : GState) : Particle × GState :=
  let n := gs.rngIdx
  let pos := (List.range (dim c)).map fun d => initDraw c (n + 3 * d)
  let vel := (List.range (dim c)).map fun d =>
    (initDraw c (n + 3 * d + 1) - initDraw c (n + 3 * d + 2)) * (1 / 10)
  let pc := eval_cost c pos
  let p : Particle := ⟨pos, vel, pos, pc, pc⟩
  if ltInf pc gs.gbestCost then (p, ⟨some pc, pos, n + 3 * dim c⟩)
  else (p, ⟨gs.gbestCost, gs.gbestPos, n + 3 * dim c⟩)

/-- The initialization loop over the first m particles (line 101). -/
def initList (c : Ctx) : ℕ → GState → List Particle × GState
  | 0, gs => ([], gs)
  | m + 1, gs =>
    let r := initP c gs
    let rest := initList c m r.2
    (r.1 :: rest.1, rest.2)

/-- Swarm initialization (lines 74-113): `pop` particles from stream index 0;
gbest starts at +infinity with a zero position vector (lines 81-82). -/
def initSwarm (c : Ctx) : SwarmState :=
  let r := initList c c.pop ⟨none, List.replicate (dim c) 0, 0⟩
  ⟨r.1, r.2⟩

/-- New velocity of dimension d (lines 120-124), consuming the two fresh
`unif01` draws at stream indices `n + 2d` (r1) and `n + 2d + 1` (r2). -/
def velNew (c : Ctx) (gb : List ℚ) (n : ℕ) (p : Particle) (d : ℕ) : ℚ :=
  c.inertia * p.vel.getD d 0
    + c.c1 * unif01 c (n + 2 * d) * (p.pbestPos.getD d 0 - p.pos.getD d 0)
    + c.c2 * unif01 c (n + 2 * d + 1) * (gb.getD d 0 - p.pos.getD d 0)

/-- The sequential projection of lines 127-129: clamp from below at lb
first, then from above at ub. -/
def project (lb ub x : ℚ) : ℚ :=
  let y := if x < lb then lb else x
  if ub < y then ub else y

/-- New position of dimension d (lines 125-129). -/
def posNew (c : Ctx) (gb : List ℚ) (n : ℕ) (p : Particle) (d : ℕ) : ℚ :=
  project c.lb c.ub (p.pos.getD d 0 + velNew c gb n p d)

/-- Process one particle of the main loop (lines 117-143): update all
dimensions, evaluate, then the nested personal/global best updates
(global only inside the personal-improvement branch, lines 135-142). -/
def procP (c : Ctx) (p : Particle) (gs : GState) : Particle × GState :=
  let n := gs.rngIdx
  let vel1 := (List.range (dim c)).map (velNew c gs.gbestPos n p)
  let pos1 := (List.range (dim c)).map (posNew c gs.gbestPos n p)
  let f := eval_cost c pos1
  if f < p.pbestCost then
    if ltInf f gs.gbestCost then (⟨pos1, vel1, pos1, f, f⟩, ⟨some f, pos1, n + 2 * dim c⟩)
    else (⟨pos1, vel1, pos1, f, f⟩, ⟨gs.gbestCost, gs.gbestPos, n + 2 * dim c⟩)
  else (⟨pos1, vel1, p.pbestPos, p.pbestCost, f⟩, ⟨gs.gbestCost, gs.gbestPos, n + 2 * dim c⟩)

/-- The inner particle loop (line 117): scan order over the particle list,
the updated global best threaded to the particles processed later. -/
def procList (c : Ctx) : List Particle → GState → List Particle × GState
  | [], gs => ([], gs)
  | p :: ps, gs =>
    let r := procP c p gs
    let rest := procList c ps r.2
    (r.1 :: rest.1, rest.2)

/-- One round of the PSO loop (lines 116-148). -/
def stepIteration (c : Ctx) (st : SwarmState) : SwarmState :=
  let r := procList c st.particles st.gs
  ⟨r.1, r.2⟩

/-- State after t full rounds (t = 0 is the freshly initialized swarm). -/
def afterIter (c : Ctx) : ℕ → SwarmState
  | 0 => initSwarm c
  | t + 1 => stepIteration c (afterIter c t)

/-- Result extraction (lines 150-159).  `py::array_t<double> H_out({k, s})`
creates a C-ordered (row-major) numpy array — pybind11 uses Fortran order
only under the `f_style` flag, which is absent — and the fill loop
`ptrH[j*k + i] = gbest_pos[j*k + i]` is an identity copy of the buffer
(the map (i, j) to j*k + i is a bijection onto the index range).  A
row-major (k, s) array places entry (i, j) at flat offset `i*s + j`, so
the matrix the caller receives is the row-major unflatten of gbest_pos,
despite the comment at lines 151 and 157 announcing a column-major
mapping. -/
def extractH (k s : ℕ) (flat : List ℚ) : List (List ℚ) :=
  (List.range k).map fun i => (List.range s).map fun j => flat.getD (i * s + j) 0

/-- The column-major unflatten that the comment at lines 151/157, §4.5 of
the spec and the §3 flattening convention announce for the result: entry
(i, j) taken from flat index `j*k + i`, matching the read in `eval_cost`.
Kept for comparison with the actual extraction above. -/
def extractHColMajor (k s : ℕ) (flat : List ℚ) : List (List ℚ) :=
  (List.range k).map fun i => (List.range s).map fun j => flat.getD (j * k + i) 0

/-- The core of `fit` after validation (lines 60-161). -/
def fitCore (c : Ctx) : List (List ℚ) :=
  extractH c.k c.s (afterIter c c.iters).gs.gbestPos

/-- Assemble the context the core reads from a configuration. -/
def mkCtx (cfg : PSOConfig) (g k s : ℕ) (W X : ℕ → ℕ → ℚ) (u : ℕ → ℚ) : Ctx :=
  ⟨popNat cfg, itersNat cfg, cfg.inertia, cfg.c1, cfg.c2, cfg.lb, cfg.ub,
    g, k, s, W, X, u⟩

/-- `Eigen::Map<const Matrix>` of a flat buffer (lines 60-61): MatrixXd is
column-major, so entry (i, j) sits at flat index `j*rows + i`. -/
def mapMat (rows : ℕ) (data : ℕ → ℚ) (i j : ℕ) : ℚ := data (j * rows + i)

/-- `PSO::fit` (lines 41-162): the two validation checks of lines 47 and 54
in source order, then the optimizer core on the mapped matrices. -/
def fit (cfg : PSOConfig) (Wnp Xnp : NpArray) (u : ℕ → ℚ) :
    Except String (List (List ℚ)) :=
  if Wnp.shape.length ≠ 2 ∨ Xnp.shape.length ≠ 2 then
    .error "W and X must be 2-D arrays"
  else
    let gW := Wnp.shape.getD 0 0
    let k := Wnp.shape.getD 1 0
    let gX := Xnp.shape.getD 0 0
    let s := Xnp.shape.getD 1 0
    if gW ≠ gX then .error "W and X must have same number of rows (features)"
    else .ok (fitCore (mkCtx cfg gW k s (mapMat gW Wnp.data) (mapMat gX Xnp.data) u))

/-! ## Derived notions used by the statements -/

/-- Costs `a ≤ b` with `none` as +infinity. -/
def optLE (a b : Option ℚ) : Prop :=
  match b with
  | none => True
  | some bv =>
    match a with
    | none => False
    | some av => av ≤ bv

instance (a b : Option ℚ) : Decidable (optLE a b) :=
  match b with
  | none => .isTrue trivial
  | some bv =>
    match a with
    | none => .isFalse id
    | some av => inferInstanceAs (Decidable (av ≤ bv))

/-- Shared state after the first m particles of one round, in scan order. -/
def midGS (c : Ctx) : List Particle → GState → ℕ → GState
  | _, gs, 0 => gs
  | [], gs, _ + 1 => gs
  | p :: ps, gs, m + 1 => midGS c ps (procP c p gs).2 m

/-- Global best cost after e individual particle evaluations of the main
loop, counting from the end of initialization (e = t * pop + i is particle
i of round t). -/
def gbAt (c : Ctx) (e : ℕ) : Option ℚ :=
  let st := afterIter c (e / c.pop)
  (midGS c st.particles st.gs (e % c.pop)).gbestCost

/-- Particle list after the first m particles of one round, in scan order
(the rest still carry their pre-round state). -/
def midPS (c : Ctx) : List Particle → GState → ℕ → List Particle
  | ps, _, 0 => ps
  | [], _, _ + 1 => []
  | p :: ps, gs, m + 1 => (procP c p gs).1 :: midPS c ps (procP c p gs).2 m

/-- Full swarm state after t complete rounds and then the first m particles
of the next round. -/
def midSwarm (c : Ctx) (t m : ℕ) : SwarmState :=
  let st := afterIter c t
  ⟨midPS c st.particles st.gs m, midGS c st.particles st.gs m⟩

/-- Shared state seen by particle m of round t just before its update. -/
def preGS (c : Ctx) (t m : ℕ) : GState :=
  midGS c (afterIter c t).particles (afterIter c t).gs m

/-- Particle m as it stands at the start of round t. -/
def partAt (c : Ctx) (t m : ℕ) : Particle :=
  (afterIter c t).particles.getD m pDef

/-- The update of particle m in round t: its new state and the shared state
it hands to the next particle. -/
def stepOf (c : Ctx) (t m : ℕ) : Particle × GState :=
  procP c (partAt c t m) (preGS c t m)

/-- Minimum of a list of costs, `none` for the empty list. -/
def minC : List ℚ → Option ℚ
  | [] => none
  | a :: l =>
    match minC l with
    | none => some a
    | some b => some (min a b)

/-- Fold a cost list into a running best, starting from b, exactly the way
the initialization loop does (strict improvement only). -/
def minWith : Option ℚ → List ℚ → Option ℚ
  | b, [] => b
  | b, a :: l => minWith (if ltInf a b then some a else b) l

/-- Personal-best costs of a swarm, in scan order. -/
def pbCosts (ps : List Particle) : List ℚ := ps.map fun p => p.pbestCost

/-- Position of the i-th particle right after initialization: its stream
draws start at index `3 * dim * i`. -/
def initPos (c : Ctx) (i : ℕ) : List ℚ :=
  (List.range (dim c)).map fun d => initDraw c (3 * dim c * i + 3 * d)

/-- Initial cost of the i-th particle. -/
def initCost (c : Ctx) (i : ℕ) : ℚ := eval_cost c (initPos c i)

/-- Index of the first particle attaining the minimum initial cost among
particles 0..m. -/
def amin (c : Ctx) : ℕ → ℕ
  | 0 => 0
  | m + 1 => if initCost c (m + 1) < initCost c (amin c m) then m + 1 else amin c m

/-- Flattening a k x s matrix (list of k rows of length s) by the
column-major convention: entry (i, j) goes to flat index `j*k + i`. -/
def flattenC (k s : ℕ) (M : List (List ℚ)) : List ℚ :=
  (List.range (k * s)).map fun m => (M.getD (m % k) []).getD (m / k) 0

/-- M is a k x s matrix as a list of rows. -/
def Shape2 (M : List (List ℚ)) (k s : ℕ) : Prop :=
  M.length = k ∧ ∀ r ∈ M, r.length = s

instance (M : List (List ℚ)) (k s : ℕ) : Decidable (Shape2 M k s) :=
  inferInstanceAs (Decidable (M.length = k ∧ ∀ r ∈ M, r.length = s))

/-- All entries of a vector lie in [lb, ub]. -/
def InBox (lb ub : ℚ) (v : List ℚ) : Prop := ∀ q ∈ v, lb ≤ q ∧ q ≤ ub

/-- The objective evaluator, written the way §4.2 of the spec words it:
Fin-indexed sums over the k x s reshape with a `max lb` lower clamp, squared
Frobenius norm of the residual.  Compared against `eval_cost` below. -/
def eval_cost_spec (c : Ctx) (flatH : List ℚ) : ℚ :=
  ∑ r : Fin c.g, ∑ j : Fin c.s,
    (c.X r j - ∑ t : Fin c.k,
      c.W r t * max c.lb (flatH.getD ((j : ℕ) * c.k + (t : ℕ)) 0)) ^ 2

/-! ## Helper lemmas -/

lemma getD_map_range (n : ℕ) (f : ℕ → ℚ) (d : ℕ) (hd : d < n) :
    ((List.range n).map f).getD d 0 = f d := by
  rw [List.getD_eq_getElem _ _ (by simpa using hd)]
  simp

lemma if_lt_eq_max (lb v : ℚ) : (if v < lb then lb else v) = max lb v := by
  rcases lt_or_le v lb with h | h
  · rw [if_pos h]
    exact (max_eq_left h.le).symm
  · rw [if_neg (not_lt.mpr h)]
    exact (max_eq_right h).symm

lemma getD_map_range_gen {α : Type} (n : ℕ) (f : ℕ → α) (d : ℕ) (d0 : α)
    (hd : d < n) : ((List.range n).map f).getD d d0 = f d := by
  rw [List.getD_eq_getElem _ _ (by simpa using hd)]
  simp

lemma Hval_eq_max (c : Ctx) (flatH : List ℚ) (i j : ℕ) :
    Hval c flatH i j = max c.lb (flatH.getD (j * c.k + i) 0) := by
  simp only [Hval]
  exact if_lt_eq_max _ _

lemma flat_index_lt (i j k s : ℕ) (hi : i < k) (hj : j < s) :
    j * k + i < k * s := by
  have h1 : j * k + i < (j + 1) * k := by
    rw [Nat.succ_mul]
    exact Nat.add_lt_add_left hi _
  have h2 : (j + 1) * k ≤ s * k := Nat.mul_le_mul_right _ hj
  rw [Nat.mul_comm k s]
  exact Nat.lt_of_lt_of_le h1 h2

lemma popNat_ge_two (cfg : PSOConfig) : 2 ≤ popNat cfg := by
  unfold popNat
  split_ifs with h <;> omega

lemma procP_rng (c : Ctx) (p : Particle) (gs : GState) :
    (procP c p gs).2.rngIdx = gs.rngIdx + 2 * dim c := by
  simp only [procP]
  split_ifs <;> rfl

lemma procP_fst_vel (c : Ctx) (p : Particle) (gs : GState) :
    (procP c p gs).1.vel
      = (List.range (dim c)).map (velNew c gs.gbestPos gs.rngIdx p) := by
  simp only [procP]
  split_ifs <;> rfl

lemma procP_fst_pos (c : Ctx) (p : Particle) (gs : GState) :
    (procP c p gs).1.pos
      = (List.range (dim c)).map (posNew c gs.gbestPos gs.rngIdx p) := by
  simp only [procP]
  split_ifs <;> rfl

lemma procP_fst_cost (c : Ctx) (p : Particle) (gs : GState) :
    (procP c p gs).1.cost = eval_cost c ((procP c p gs).1.pos) := by
  simp only [procP]
  split_ifs <;> rfl

lemma procP_fst_pbestCost (c : Ctx) (p : Particle) (gs : GState) :
    (procP c p gs).1.pbestCost =
      if eval_cost c ((procP c p gs).1.pos) < p.pbestCost
      then eval_cost c ((procP c p gs).1.pos) else p.pbestCost := by
  simp only [procP]
  split_ifs <;> rfl

lemma procP_fst_pbestPos (c : Ctx) (p : Particle) (gs : GState) :
    (procP c p gs).1.pbestPos =
      if eval_cost c ((procP c p gs).1.pos) < p.pbestCost
      then (procP c p gs).1.pos else p.pbestPos := by
  simp only [procP]
  split_ifs <;> rfl

lemma procP_snd_gbestCost (c : Ctx) (p : Particle) (gs : GState) :
    (procP c p gs).2.gbestCost =
      if eval_cost c ((procP c p gs).1.pos) < p.pbestCost ∧
          ltInf (eval_cost c ((procP c p gs).1.pos)) gs.gbestCost = true
      then some (eval_cost c ((procP c p gs).1.pos)) else gs.gbestCost := by
  simp only [procP]
  split_ifs with h1 h2 h3 <;> simp_all

lemma procP_snd_gbestPos (c : Ctx) (p : Particle) (gs : GState) :
    (procP c p gs).2.gbestPos =
      if eval_cost c ((procP c p gs).1.pos) < p.pbestCost ∧
          ltInf (eval_cost c ((procP c p gs).1.pos)) gs.gbestCost = true
      then (procP c p gs).1.pos else gs.gbestPos := by
  simp only [procP]
  split_ifs with h1 h2 h3 <;> simp_all

lemma procList_length (c : Ctx) (ps : List Particle) (gs : GState) :
    (procList c ps gs).1.length = ps.length := by
  induction ps generalizing gs with
  | nil => rfl
  | cons p tl ih => simp [procList, ih]

lemma procList_rng (c : Ctx) (ps : List Particle) (gs : GState) :
    (procList c ps gs).2.rngIdx = gs.rngIdx + 2 * dim c * ps.length := by
  induction ps generalizing gs with
  | nil => simp [procList]
  | cons p tl ih =>
    simp only [procList, ih, procP_rng, List.length_cons]
    ring

lemma midGS_zero (c : Ctx) (ps : List Particle) (gs : GState) :
    midGS c ps gs 0 = gs := by
  cases ps <;> rfl

lemma midGS_nil (c : Ctx) (gs : GState) (m : ℕ) : midGS c [] gs m = gs := by
  cases m <;> rfl

lemma midGS_all (c : Ctx) (ps : List Particle) (gs : GState) :
    midGS c ps gs ps.length = (procList c ps gs).2 := by
  induction ps generalizing gs with
  | nil => rfl
  | cons p tl ih => simp only [List.length_cons, midGS, procList, ih]

lemma midGS_succ (c : Ctx) (ps : List Particle) (gs : GState) (m : ℕ)
    (hm : m < ps.length) :
    midGS c ps gs (m + 1) = (procP c (ps.getD m pDef) (midGS c ps gs m)).2 := by
  induction ps generalizing gs m with
  | nil => simp at hm
  | cons p tl ih =>
    cases m with
    | zero =>
      simp only [midGS, midGS_zero, List.getD_cons_zero]
    | succ m2 =>
      have hm2 : m2 < tl.length := by simpa using hm
      simp only [midGS, List.getD_cons_succ]
      rw [ih _ _ hm2]

lemma midGS_rng (c : Ctx) (ps : List Particle) (gs : GState) (m : ℕ)
    (hm : m ≤ ps.length) :
    (midGS c ps gs m).rngIdx = gs.rngIdx + 2 * dim c * m := by
  induction ps generalizing gs m with
  | nil =>
    have : m = 0 := by simpa using hm
    subst this
    simp [midGS_nil]
  | cons p tl ih =>
    cases m with
    | zero => simp [midGS_zero]
    | succ m2 =>
      have hm2 : m2 ≤ tl.length := by simpa using hm
      simp only [midGS]
      rw [ih _ _ hm2, procP_rng]
      ring

lemma midPS_zero (c : Ctx) (ps : List Particle) (gs : GState) :
    midPS c ps gs 0 = ps := by
  cases ps <;> rfl

lemma midPS_all (c : Ctx) (ps : List Particle) (gs : GState) :
    midPS c ps gs ps.length = (procList c ps gs).1 := by
  induction ps generalizing gs with
  | nil => rfl
  | cons p tl ih => simp only [List.length_cons, midPS, procList, ih]

lemma procList_getD (c : Ctx) (ps : List Particle) (gs : GState) (m : ℕ)
    (hm : m < ps.length) :
    (procList c ps gs).1.getD m pDef
      = (procP c (ps.getD m pDef) (midGS c ps gs m)).1 := by
  induction ps generalizing gs m with
  | nil => simp at hm
  | cons p tl ih =>
    cases m with
    | zero =>
      simp only [procList, List.getD_cons_zero, midGS_zero]
    | succ m2 =>
      have hm2 : m2 < tl.length := by simpa using hm
      simp only [procList, List.getD_cons_succ, midGS]
      exact ih _ _ hm2

lemma initP_rng (c : Ctx) (gs : GState) :
    (initP c gs).2.rngIdx = gs.rngIdx + 3 * dim c := by
  simp only [initP]
  split_ifs <;> rfl

lemma initList_length (c : Ctx) (m : ℕ) (gs : GState) :
    (initList c m gs).1.length = m := by
  induction m generalizing gs with
  | zero => rfl
  | succ m2 ih => simp [initList, ih]

lemma initList_rng (c : Ctx) (m : ℕ) (gs : GState) :
    (initList c m gs).2.rngIdx = gs.rngIdx + 3 * dim c * m := by
  induction m generalizing gs with
  | zero => simp [initList]
  | succ m2 ih =>
    simp only [initList, ih, initP_rng]
    ring

lemma initList_succ_back (c : Ctx) (m : ℕ) (gs : GState) :
    initList c (m + 1) gs
      = ((initList c m gs).1 ++ [(initP c (initList c m gs).2).1],
          (initP c (initList c m gs).2).2) := by
  induction m generalizing gs with
  | zero => rfl
  | succ m2 ih =>
    have h1 : initList c (m2 + 1 + 1) gs
        = ((initP c gs).1 :: (initList c (m2 + 1) (initP c gs).2).1,
            (initList c (m2 + 1) (initP c gs).2).2) := rfl
    rw [h1, ih]
    simp [initList]

lemma afterIter_len (c : Ctx) (t : ℕ) :
    (afterIter c t).particles.length = c.pop := by
  induction t with
  | zero =>
    simp only [afterIter, initSwarm]
    exact initList_length c c.pop _
  | succ t2 ih =>
    simp only [afterIter, stepIteration]
    rw [procList_length]
    exact ih

lemma afterIter_rng (c : Ctx) (t : ℕ) :
    (afterIter c t).gs.rngIdx = 3 * dim c * c.pop + t * (2 * dim c * c.pop) := by
  induction t with
  | zero =>
    simp only [afterIter, initSwarm]
    rw [initList_rng]
    simp
  | succ t2 ih =>
    simp only [afterIter, stepIteration]
    rw [procList_rng, afterIter_len, ih]
    ring

lemma minC_eq_none_iff (l : List ℚ) : minC l = none ↔ l = [] := by
  cases l with
  | nil => simp [minC]
  | cons a tl =>
    simp only [minC]
    cases h : minC tl <;> simp

lemma minC_mem (l : List ℚ) (hne : l ≠ []) :
    ∃ v, minC l = some v ∧ v ∈ l ∧ ∀ x ∈ l, v ≤ x := by
  induction l with
  | nil => exact absurd rfl hne
  | cons a tl ih =>
    cases h : minC tl with
    | none =>
      have htl : tl = [] := (minC_eq_none_iff tl).mp h
      subst htl
      refine ⟨a, ?_, List.mem_singleton_self a, ?_⟩
      · simp [minC]
      · intro x hx
        rw [List.mem_singleton.mp hx]
    | some b =>
      have htl : tl ≠ [] := by
        intro hcon
        subst hcon
        simp [minC] at h
      obtain ⟨w, hw1, hw2, hw3⟩ := ih htl
      have hwb : w = b := by
        rw [hw1] at h
        exact Option.some.inj h
      subst hwb
      refine ⟨min a w, ?_, ?_, ?_⟩
      · simp only [minC, h]
      · rcases min_cases a w with ⟨he, _⟩ | ⟨he, _⟩
        · rw [he]
          exact List.mem_cons_self a tl
        · rw [he]
          exact List.mem_cons_of_mem a hw2
      · intro x hx
        rcases List.mem_cons.mp hx with hxa | hxtl
        · subst hxa
          exact min_le_left _ _
        · exact le_trans (min_le_right _ _) (hw3 x hxtl)

lemma minC_eq_of (l : List ℚ) (v : ℚ) (hv : v ∈ l) (hle : ∀ x ∈ l, v ≤ x) :
    minC l = some v := by
  have hne : l ≠ [] := List.ne_nil_of_mem hv
  obtain ⟨w, hw1, hw2, hw3⟩ := minC_mem l hne
  rw [hw1]
  exact congrArg some (le_antisymm (hw3 v hv) (hle w hw2))

lemma pbCosts_append (l1 l2 : List Particle) :
    pbCosts (l1 ++ l2) = pbCosts l1 ++ pbCosts l2 := by
  simp [pbCosts]

lemma pbCosts_cons (p : Particle) (l : List Particle) :
    pbCosts (p :: l) = p.pbestCost :: pbCosts l := rfl

lemma initP_fst_pos (c : Ctx) (gs : GState) :
    (initP c gs).1.pos
      = (List.range (dim c)).map fun d => initDraw c (gs.rngIdx + 3 * d) := by
  simp only [initP]
  split_ifs <;> rfl

lemma initP_fst_pbest (c : Ctx) (gs : GState) :
    (initP c gs).1.pbestPos = (initP c gs).1.pos ∧
    (initP c gs).1.pbestCost = eval_cost c ((initP c gs).1.pos) := by
  simp only [initP]
  split_ifs <;> exact ⟨rfl, rfl⟩

lemma initP_snd_gbestCost (c : Ctx) (gs : GState) :
    (initP c gs).2.gbestCost =
      if ltInf (eval_cost c ((initP c gs).1.pos)) gs.gbestCost = true
      then some (eval_cost c ((initP c gs).1.pos)) else gs.gbestCost := by
  simp only [initP]
  split_ifs <;> simp_all

lemma initP_snd_gbestPos (c : Ctx) (gs : GState) :
    (initP c gs).2.gbestPos =
      if ltInf (eval_cost c ((initP c gs).1.pos)) gs.gbestCost = true
      then (initP c gs).1.pos else gs.gbestPos := by
  simp only [initP]
  split_ifs <;> simp_all

/-! ## C1 -/

/-- C1 (code bug): the claim — H(i, j) = global_best_position[j*k + i],
the same column-major convention the objective evaluator reads — is the
documented intent (comment at lines 151/157, spec §3/§4.5), but the code
identity-copies gbest_pos into a C-ordered numpy array, so the returned
entry (i, j) is gbest_pos[i*s + j].  At the failing input k = s = 2 with
flat global best [1, 2, 3, 4]: the code returns H(0, 1) = 2 while the
claim demands H(0, 1) = flat[1*2 + 0] = 3, the value the evaluator used
at that coordinate; flattening [[1, 2], [3, 4]] by the §3 convention and
extracting it back yields [[1, 3], [2, 4]], refuting the claimed round
trip, whereas the announced column-major unflatten would restore it. -/
theorem c1_extraction_code_bug :
    ((extractH 2 2 [1, 2, 3, 4]).getD 0 []).getD 1 0 = 2 ∧
    ([1, 2, 3, 4] : List ℚ).getD (1 * 2 + 0) 0 = 3 ∧
    Hval ⟨2, 0, 0, 0, 0, 0, 10, 1, 2, 2, (fun _ _ => 0), (fun _ _ => 0),
      (fun _ => 0)⟩ [1, 2, 3, 4] 0 1 = 3 ∧
    ((extractH 2 2 [1, 2, 3, 4]).getD 0 []).getD 1 0
      ≠ ([1, 2, 3, 4] : List ℚ).getD (1 * 2 + 0) 0 ∧
    extractH 2 2 (flattenC 2 2 [[1, 2], [3, 4]]) = [[1, 3], [2, 4]] ∧
    extractH 2 2 (flattenC 2 2 [[1, 2], [3, 4]]) ≠ [[1, 2], [3, 4]] ∧
    extractHColMajor 2 2 (flattenC 2 2 [[1, 2], [3, 4]]) = [[1, 2], [3, 4]] := by
  decide

/-! ## C2 -/

/-- C2: two runs of fit with the same configuration, inputs, and draw stream
(as produced by an identical nonzero seed) agree on every intermediate swarm
state and return identical matrices.  The seed acts on the run only through
the stream, so pointwise-equal streams is the faithful reading of
"identical nonzero seed". -/
theorem c2_determinism (cfg : PSOConfig) (Wnp Xnp : NpArray) (u1 u2 : ℕ → ℚ)
    (h : ∀ n, u1 n = u2 n) :
    (∀ (g k s : ℕ) (W X : ℕ → ℕ → ℚ) (t : ℕ),
      afterIter (mkCtx cfg g k s W X u1) t = afterIter (mkCtx cfg g k s W X u2) t) ∧
    fit cfg Wnp Xnp u1 = fit cfg Wnp Xnp u2 := by
  have hu : u1 = u2 := funext h
  subst hu
  exact ⟨fun _ _ _ _ _ _ => rfl, rfl⟩

/-- Witness for C2. -/
theorem c2_determinism_witness :
    fit ⟨30, 500, 729/1000, 149445/100000, 149445/100000, 0, 10, false, 1⟩
        ⟨[1, 1], fun _ => 1⟩ ⟨[1, 1], fun _ => 1⟩ (fun _ => 1/2)
      = fit ⟨30, 500, 729/1000, 149445/100000, 149445/100000, 0, 10, false, 1⟩
        ⟨[1, 1], fun _ => 1⟩ ⟨[1, 1], fun _ => 1⟩ (fun _ => 1/2) :=
  (c2_determinism ⟨30, 500, 729/1000, 149445/100000, 149445/100000, 0, 10, false, 1⟩
    ⟨[1, 1], fun _ => 1⟩ ⟨[1, 1], fun _ => 1⟩ (fun _ => 1/2) (fun _ => 1/2)
    (fun _ => rfl)).2

/-! ## C9 -/

/-- C9: the objective evaluator equals its specification-side formulation
(column-major reshape at flat index j*k + t, lower clamp `max lb` only,
squared Frobenius norm of X - W*H), its value is always nonnegative, and it
does not depend on ub at all (the asymmetric clamp policy). -/
theorem c9_eval_cost (c : Ctx) (flatH : List ℚ) :
    eval_cost c flatH = eval_cost_spec c flatH ∧
    0 ≤ eval_cost c flatH ∧
    ∀ ub2 : ℚ,
      eval_cost ⟨c.pop, c.iters, c.inertia, c.c1, c.c2, c.lb, ub2,
        c.g, c.k, c.s, c.W, c.X, c.u⟩ flatH = eval_cost c flatH := by
  have spec_eq : eval_cost_spec c flatH =
      ∑ r ∈ Finset.range c.g, ∑ j ∈ Finset.range c.s,
        (c.X r j - ∑ t ∈ Finset.range c.k,
          c.W r t * max c.lb (flatH.getD (j * c.k + t) 0)) ^ 2 := by
    simp only [eval_cost_spec]
    rw [Fin.sum_univ_eq_sum_range (fun r => ∑ j : Fin c.s, (c.X r j -
      ∑ t : Fin c.k, c.W r t * max c.lb (flatH.getD ((j : ℕ) * c.k + t) 0)) ^ 2)]
    apply Finset.sum_congr rfl
    intro r _
    rw [Fin.sum_univ_eq_sum_range (fun j => (c.X r j -
      ∑ t : Fin c.k, c.W r t * max c.lb (flatH.getD (j * c.k + (t : ℕ)) 0)) ^ 2)]
    apply Finset.sum_congr rfl
    intro j _
    congr 1
    congr 1
    exact Fin.sum_univ_eq_sum_range
      (fun t => c.W r t * max c.lb (flatH.getD (j * c.k + t) 0)) c.k
  refine ⟨?_, ?_, fun ub2 => rfl⟩
  · rw [spec_eq]
    simp only [eval_cost, Hval_eq_max]
  · apply Finset.sum_nonneg
    intro r _
    apply Finset.sum_nonneg
    intro j _
    positivity

/-! ## C6 -/

/-- C6: fit returns an invalid-argument error exactly when W or X is not
2-dimensional or their row counts differ; and an erroring call performs no
swarm work: its result does not depend on the draw stream or on the array
contents, only on the shapes. -/
theorem c6_validation (cfg : PSOConfig) (Wnp Xnp : NpArray) (u : ℕ → ℚ) :
    ((∃ e, fit cfg Wnp Xnp u = .error e) ↔
      (Wnp.shape.length ≠ 2 ∨ Xnp.shape.length ≠ 2 ∨
        Wnp.shape.getD 0 0 ≠ Xnp.shape.getD 0 0)) ∧
    ((Wnp.shape.length ≠ 2 ∨ Xnp.shape.length ≠ 2 ∨
        Wnp.shape.getD 0 0 ≠ Xnp.shape.getD 0 0) →
      ∀ (u2 dW dX : ℕ → ℚ),
        fit cfg ⟨Wnp.shape, dW⟩ ⟨Xnp.shape, dX⟩ u2 = fit cfg Wnp Xnp u) := by
  by_cases h1 : Wnp.shape.length ≠ 2 ∨ Xnp.shape.length ≠ 2
  · constructor
    · constructor
      · intro _
        exact h1.elim Or.inl (fun h => Or.inr (Or.inl h))
      · intro _
        exact ⟨"W and X must be 2-D arrays", by simp only [fit, if_pos h1]⟩
    · intro _ u2 dW dX
      simp only [fit, if_pos h1]
  · by_cases h2 : Wnp.shape.getD 0 0 ≠ Xnp.shape.getD 0 0
    · constructor
      · constructor
        · intro _
          exact Or.inr (Or.inr h2)
        · intro _
          refine ⟨"W and X must have same number of rows (features)", ?_⟩
          simp only [fit, if_neg h1]
          rw [if_pos h2]
      · intro _ u2 dW dX
        simp only [fit, if_neg h1]
        rw [if_pos h2, if_pos h2]
    · constructor
      · constructor
        · intro he
          rcases he with ⟨e, he⟩
          exfalso
          revert he
          simp only [fit, if_neg h1]
          rw [if_neg h2]
          intro he
          exact Except.noConfusion he
        · intro hc
          exfalso
          rcases hc with h | h | h
          · exact h1 (Or.inl h)
          · exact h1 (Or.inr h)
          · exact h2 h
      · intro hc
        exfalso
        rcases hc with h | h | h
        · exact h1 (Or.inl h)
        · exact h1 (Or.inr h)
        · exact h2 h

/-- Witness for C6 (mismatched row counts; second part applied with a
different stream and different data). -/
theorem c6_validation_witness :
    (∃ e, fit ⟨30, 500, 729/1000, 149445/100000, 149445/100000, 0, 10, false, 1⟩
        ⟨[2, 1], fun _ => 0⟩ ⟨[3, 1], fun _ => 0⟩ (fun _ => 1/2) = .error e) ∧
    fit ⟨30, 500, 729/1000, 149445/100000, 149445/100000, 0, 10, false, 1⟩
        ⟨[2, 1], fun _ => 7⟩ ⟨[3, 1], fun _ => 9⟩ (fun _ => 1/3)
      = fit ⟨30, 500, 729/1000, 149445/100000, 149445/100000, 0, 10, false, 1⟩
        ⟨[2, 1], fun _ => 0⟩ ⟨[3, 1], fun _ => 0⟩ (fun _ => 1/2) :=
  ⟨(c6_validation ⟨30, 500, 729/1000, 149445/100000, 149445/100000, 0, 10, false, 1⟩
      ⟨[2, 1], fun _ => 0⟩ ⟨[3, 1], fun _ => 0⟩ (fun _ => 1/2)).1.mpr
      (by decide),
    (c6_validation ⟨30, 500, 729/1000, 149445/100000, 149445/100000, 0, 10, false, 1⟩
      ⟨[2, 1], fun _ => 0⟩ ⟨[3, 1], fun _ => 0⟩ (fun _ => 1/2)).2
      (by decide) (fun _ => 1/3) (fun _ => 7) (fun _ => 9)⟩

/-! ## C7 -/

/-- C7: a configuration with population 0 or 1 behaves identically to the
same configuration with population 2: every intermediate state and the
returned matrix agree, and no error is raised on valid inputs. -/
theorem c7_population_floor (p0 m : ℤ) (iw cc1 cc2 lb ub : ℚ) (vb : Bool)
    (sd : ℕ) (Wnp Xnp : NpArray) (u : ℕ → ℚ) (h : p0 = 0 ∨ p0 = 1) :
    fit ⟨p0, m, iw, cc1, cc2, lb, ub, vb, sd⟩ Wnp Xnp u
      = fit ⟨2, m, iw, cc1, cc2, lb, ub, vb, sd⟩ Wnp Xnp u ∧
    (∀ (g k s : ℕ) (W X : ℕ → ℕ → ℚ) (t : ℕ),
      afterIter (mkCtx ⟨p0, m, iw, cc1, cc2, lb, ub, vb, sd⟩ g k s W X u) t
        = afterIter (mkCtx ⟨2, m, iw, cc1, cc2, lb, ub, vb, sd⟩ g k s W X u) t) ∧
    (Wnp.shape.length = 2 → Xnp.shape.length = 2 →
      Wnp.shape.getD 0 0 = Xnp.shape.getD 0 0 →
      ∃ H, fit ⟨p0, m, iw, cc1, cc2, lb, ub, vb, sd⟩ Wnp Xnp u = .ok H) := by
  have hpop : popNat ⟨p0, m, iw, cc1, cc2, lb, ub, vb, sd⟩
      = popNat ⟨2, m, iw, cc1, cc2, lb, ub, vb, sd⟩ := by
    rcases h with h | h <;> subst h <;> rfl
  have hctx : ∀ (g k s : ℕ) (W X : ℕ → ℕ → ℚ),
      mkCtx ⟨p0, m, iw, cc1, cc2, lb, ub, vb, sd⟩ g k s W X u
        = mkCtx ⟨2, m, iw, cc1, cc2, lb, ub, vb, sd⟩ g k s W X u := by
    intro g k s W X
    have hiters : itersNat ⟨p0, m, iw, cc1, cc2, lb, ub, vb, sd⟩
        = itersNat ⟨2, m, iw, cc1, cc2, lb, ub, vb, sd⟩ := rfl
    simp only [mkCtx, hpop, hiters]
  refine ⟨?_, fun g k s W X t => by rw [hctx], ?_⟩
  · simp only [fit, hctx]
  · intro h1 h2 h3
    have hc1 : ¬ (Wnp.shape.length ≠ 2 ∨ Xnp.shape.length ≠ 2) := by
      simp [h1, h2]
    have hc2 : ¬ Wnp.shape.getD 0 0 ≠ Xnp.shape.getD 0 0 := by
      simp only [ne_eq, not_not]
      exact h3
    have heq : fit ⟨p0, m, iw, cc1, cc2, lb, ub, vb, sd⟩ Wnp Xnp u
        = .ok (fitCore (mkCtx ⟨p0, m, iw, cc1, cc2, lb, ub, vb, sd⟩
          (Wnp.shape.getD 0 0) (Wnp.shape.getD 1 0) (Xnp.shape.getD 1 0)
          (mapMat (Wnp.shape.getD 0 0) Wnp.data)
          (mapMat (Xnp.shape.getD 0 0) Xnp.data) u)) := by
      simp only [fit, if_neg hc1]
      rw [if_neg hc2]
    exact ⟨_, heq⟩

/-- Witness for C7 with population 0 and a valid 1 x 1 problem. -/
theorem c7_population_floor_witness :
    fit ⟨0, 2, 729/1000, 1, 1, 0, 10, false, 1⟩
        ⟨[1, 1], fun _ => 1⟩ ⟨[1, 1], fun _ => 2⟩ (fun _ => 1/2)
      = fit ⟨2, 2, 729/1000, 1, 1, 0, 10, false, 1⟩
        ⟨[1, 1], fun _ => 1⟩ ⟨[1, 1], fun _ => 2⟩ (fun _ => 1/2) ∧
    ∃ H, fit ⟨0, 2, 729/1000, 1, 1, 0, 10, false, 1⟩
        ⟨[1, 1], fun _ => 1⟩ ⟨[1, 1], fun _ => 2⟩ (fun _ => 1/2) = .ok H :=
  ⟨(c7_population_floor 0 2 (729/1000) 1 1 0 10 false 1
      ⟨[1, 1], fun _ => 1⟩ ⟨[1, 1], fun _ => 2⟩ (fun _ => 1/2) (Or.inl rfl)).1,
    (c7_population_floor 0 2 (729/1000) 1 1 0 10 false 1
      ⟨[1, 1], fun _ => 1⟩ ⟨[1, 1], fun _ => 2⟩ (fun _ => 1/2) (Or.inl rfl)).2.2
      rfl rfl rfl⟩

/-! ## C3 -/

lemma project_bounds (lb ub x : ℚ) (h : lb ≤ ub) :
    lb ≤ project lb ub x ∧ project lb ub x ≤ ub := by
  simp only [project]
  split_ifs <;> constructor <;> linarith

/-- C3: in round t, particle m (scan order) consumes exactly two fresh
uniform draws per dimension at consecutive, globally accounted stream
indices, updates velocity by the inertia/cognitive/social rule, increments
its position by the new velocity and projects it onto [lb, ub] (both
bounds), is then evaluated, updates its personal best on improvement and
the global best inside the improvement branch, and the updated shared state
is exactly the one seen by particle m + 1 of the same round. -/
theorem c3_update_rule (c : Ctx) (t m d : ℕ) (hm : m < c.pop) (hd : d < dim c) :
    (preGS c t m).rngIdx
      = 3 * dim c * c.pop + t * (2 * dim c * c.pop) + 2 * dim c * m ∧
    (stepOf c t m).1.vel.getD d 0
      = c.inertia * (partAt c t m).vel.getD d 0
        + c.c1 * c.u ((preGS c t m).rngIdx + 2 * d)
          * ((partAt c t m).pbestPos.getD d 0 - (partAt c t m).pos.getD d 0)
        + c.c2 * c.u ((preGS c t m).rngIdx + 2 * d + 1)
          * ((preGS c t m).gbestPos.getD d 0 - (partAt c t m).pos.getD d 0) ∧
    (stepOf c t m).1.pos.getD d 0
      = project c.lb c.ub
          ((partAt c t m).pos.getD d 0 + (stepOf c t m).1.vel.getD d 0) ∧
    (c.lb ≤ c.ub →
      c.lb ≤ (stepOf c t m).1.pos.getD d 0 ∧
        (stepOf c t m).1.pos.getD d 0 ≤ c.ub) ∧
    (stepOf c t m).2.rngIdx = (preGS c t m).rngIdx + 2 * dim c ∧
    (stepOf c t m).1.cost = eval_cost c ((stepOf c t m).1.pos) ∧
    (stepOf c t m).1.pbestCost
      = (if eval_cost c ((stepOf c t m).1.pos) < (partAt c t m).pbestCost
         then eval_cost c ((stepOf c t m).1.pos)
         else (partAt c t m).pbestCost) ∧
    (stepOf c t m).1.pbestPos
      = (if eval_cost c ((stepOf c t m).1.pos) < (partAt c t m).pbestCost
         then (stepOf c t m).1.pos else (partAt c t m).pbestPos) ∧
    (stepOf c t m).2.gbestCost
      = (if eval_cost c ((stepOf c t m).1.pos) < (partAt c t m).pbestCost ∧
            ltInf (eval_cost c ((stepOf c t m).1.pos)) (preGS c t m).gbestCost
              = true
         then some (eval_cost c ((stepOf c t m).1.pos))
         else (preGS c t m).gbestCost) ∧
    preGS c t (m + 1) = (stepOf c t m).2 ∧
    (afterIter c (t + 1)).particles.getD m pDef = (stepOf c t m).1 := by
  have hmlen : m < (afterIter c t).particles.length := by
    rw [afterIter_len]
    exact hm
  have hvel : (stepOf c t m).1.vel.getD d 0
      = velNew c (preGS c t m).gbestPos (preGS c t m).rngIdx (partAt c t m) d := by
    rw [stepOf, procP_fst_vel, getD_map_range _ _ _ hd]
  have hpos : (stepOf c t m).1.pos.getD d 0
      = posNew c (preGS c t m).gbestPos (preGS c t m).rngIdx (partAt c t m) d := by
    rw [stepOf, procP_fst_pos, getD_map_range _ _ _ hd]
  refine ⟨?_, ?_, ?_, ?_, ?_, ?_, ?_, ?_, ?_, ?_, ?_⟩
  · rw [preGS, midGS_rng _ _ _ _ hmlen.le, afterIter_rng]
  · rw [hvel]
    rfl
  · rw [hvel, hpos]
    rfl
  · intro hlb
    rw [hpos]
    exact project_bounds _ _ _ hlb
  · rw [stepOf, procP_rng]
  · rw [stepOf, procP_fst_cost]
  · rw [stepOf, procP_fst_pbestCost]
  · rw [stepOf, procP_fst_pbestPos]
  · rw [stepOf, procP_snd_gbestCost]
  · rw [preGS, midGS_succ _ _ _ _ hmlen]
    rfl
  · have : (afterIter c (t + 1)).particles
        = (procList c (afterIter c t).particles (afterIter c t).gs).1 := rfl
    rw [this, procList_getD _ _ _ _ hmlen]
    rfl

/-- Witness for C3: the fresh-draw accounting for particle 0 of round 0 on
a concrete 1 x 1 problem. -/
theorem c3_update_rule_witness :
    ((0 : ℕ) < (mkCtx ⟨2, 1, 1/2, 1, 1, 0, 10, false, 1⟩ 1 1 1
        (fun _ _ => 1) (fun _ _ => 2) (fun _ => 1/2)).pop ∧
      (0 : ℕ) < dim (mkCtx ⟨2, 1, 1/2, 1, 1, 0, 10, false, 1⟩ 1 1 1
        (fun _ _ => 1) (fun _ _ => 2) (fun _ => 1/2))) ∧
    (preGS (mkCtx ⟨2, 1, 1/2, 1, 1, 0, 10, false, 1⟩ 1 1 1
        (fun _ _ => 1) (fun _ _ => 2) (fun _ => 1/2)) 0 0).rngIdx
      = 3 * dim (mkCtx ⟨2, 1, 1/2, 1, 1, 0, 10, false, 1⟩ 1 1 1
          (fun _ _ => 1) (fun _ _ => 2) (fun _ => 1/2))
          * (mkCtx ⟨2, 1, 1/2, 1, 1, 0, 10, false, 1⟩ 1 1 1
            (fun _ _ => 1) (fun _ _ => 2) (fun _ => 1/2)).pop
        + 0 * (2 * dim (mkCtx ⟨2, 1, 1/2, 1, 1, 0, 10, false, 1⟩ 1 1 1
            (fun _ _ => 1) (fun _ _ => 2) (fun _ => 1/2))
          * (mkCtx ⟨2, 1, 1/2, 1, 1, 0, 10, false, 1⟩ 1 1 1
            (fun _ _ => 1) (fun _ _ => 2) (fun _ => 1/2)).pop)
        + 2 * dim (mkCtx ⟨2, 1, 1/2, 1, 1, 0, 10, false, 1⟩ 1 1 1
            (fun _ _ => 1) (fun _ _ => 2) (fun _ => 1/2)) * 0 :=
  ⟨⟨by decide, by decide⟩,
    (c3_update_rule (mkCtx ⟨2, 1, 1/2, 1, 1, 0, 10, false, 1⟩ 1 1 1
      (fun _ _ => 1) (fun _ _ => 2) (fun _ => 1/2)) 0 0 0
      (by decide) (by decide)).1⟩

/-! ## C4 -/

lemma optLE_refl (a : Option ℚ) : optLE a a := by
  cases a with
  | none => trivial
  | some v => exact le_refl v

lemma optLE_trans {a b cc : Option ℚ} (h1 : optLE a b) (h2 : optLE b cc) :
    optLE a cc := by
  cases cc with
  | none => trivial
  | some cv =>
    cases b with
    | none => exact absurd h2 id
    | some bv =>
      cases a with
      | none => exact absurd h1 id
      | some av => exact le_trans h1 h2

lemma procP_gbest_mono (c : Ctx) (p : Particle) (gs : GState) :
    optLE (procP c p gs).2.gbestCost gs.gbestCost := by
  rw [procP_snd_gbestCost]
  split_ifs with h
  · cases hgb : gs.gbestCost with
    | none => trivial
    | some gv =>
      have := h.2
      rw [hgb] at this
      simp only [ltInf, decide_eq_true_eq] at this
      exact le_of_lt this
  · exact optLE_refl _

lemma gbAt_step (c : Ctx) (hpop : 0 < c.pop) (e : ℕ) :
    optLE (gbAt c (e + 1)) (gbAt c e) := by
  have hr : e % c.pop < c.pop := Nat.mod_lt _ hpop
  have hrlen : e % c.pop < (afterIter c (e / c.pop)).particles.length := by
    rw [afterIter_len]
    exact hr
  have hX : gbAt c (e + 1)
      = (midGS c (afterIter c (e / c.pop)).particles
          (afterIter c (e / c.pop)).gs (e % c.pop + 1)).gbestCost := by
    rcases Nat.lt_or_ge (e % c.pop + 1) c.pop with hlt | hge
    · have hdiv : (e + 1) / c.pop = e / c.pop := by
        conv_lhs => rw [← Nat.div_add_mod e c.pop]
        rw [Nat.add_assoc, Nat.mul_add_div hpop, Nat.div_eq_of_lt hlt,
          Nat.add_zero]
      have hmod : (e + 1) % c.pop = e % c.pop + 1 := by
        conv_lhs => rw [← Nat.div_add_mod e c.pop]
        rw [Nat.add_assoc, Nat.mul_add_mod, Nat.mod_eq_of_lt hlt]
      rw [gbAt, hdiv, hmod]
    · have heq : e % c.pop + 1 = c.pop := by omega
      have hdiv : (e + 1) / c.pop = e / c.pop + 1 := by
        conv_lhs => rw [← Nat.div_add_mod e c.pop]
        rw [Nat.add_assoc, heq, ← Nat.mul_succ, Nat.mul_div_cancel_left _ hpop]
      have hmod : (e + 1) % c.pop = 0 := by
        conv_lhs => rw [← Nat.div_add_mod e c.pop]
        rw [Nat.add_assoc, heq, ← Nat.mul_succ, Nat.mul_mod_right]
      rw [gbAt, hdiv, hmod, midGS_zero, heq]
      have hfull := midGS_all c (afterIter c (e / c.pop)).particles
        (afterIter c (e / c.pop)).gs
      rw [afterIter_len] at hfull
      rw [hfull]
      rfl
  rw [hX, gbAt, midGS_succ _ _ _ _ hrlen]
  exact procP_gbest_mono _ _ _

/-- C4: within one run, the global best cost is non-increasing along the
whole sequence of particle evaluations: after any later evaluation it is
less than or equal to its value after any earlier one (`none` standing for
the initial +infinity, e counting evaluations from the end of
initialization, with e = t * pop + i denoting particle i of round t). -/
theorem c4_monotone_gbest (cfg : PSOConfig) (g k s : ℕ) (W X : ℕ → ℕ → ℚ)
    (u : ℕ → ℚ) (e e2 : ℕ) (he : e ≤ e2)
    (hrun : e2 ≤ itersNat cfg * popNat cfg) :
    optLE (gbAt (mkCtx cfg g k s W X u) e2) (gbAt (mkCtx cfg g k s W X u) e) := by
  have hpop : 0 < (mkCtx cfg g k s W X u).pop :=
    Nat.lt_of_lt_of_le (by omega) (popNat_ge_two cfg)
  clear hrun
  induction e2 with
  | zero =>
    have : e = 0 := Nat.le_zero.mp he
    subst this
    exact optLE_refl _
  | succ e3 ih =>
    rcases Nat.lt_or_ge e (e3 + 1) with hlt | hge
    · exact optLE_trans (gbAt_step _ hpop e3) (ih (Nat.lt_succ_iff.mp hlt))
    · have : e = e3 + 1 := Nat.le_antisymm he hge
      subst this
      exact optLE_refl _

/-- Witness for C4 on a concrete 1 x 1 problem, from evaluation 0 to 2. -/
theorem c4_monotone_gbest_witness :
    ((0 : ℕ) ≤ 2 ∧ (2 : ℕ) ≤ itersNat ⟨2, 1, 1/2, 1, 1, 0, 10, false, 1⟩
        * popNat ⟨2, 1, 1/2, 1, 1, 0, 10, false, 1⟩) ∧
    optLE (gbAt (mkCtx ⟨2, 1, 1/2, 1, 1, 0, 10, false, 1⟩ 1 1 1
        (fun _ _ => 1) (fun _ _ => 2) (fun _ => 1/2)) 2)
      (gbAt (mkCtx ⟨2, 1, 1/2, 1, 1, 0, 10, false, 1⟩ 1 1 1
        (fun _ _ => 1) (fun _ _ => 2) (fun _ => 1/2)) 0) :=
  ⟨⟨by decide, by decide⟩,
    c4_monotone_gbest ⟨2, 1, 1/2, 1, 1, 0, 10, false, 1⟩ 1 1 1
      (fun _ _ => 1) (fun _ _ => 2) (fun _ => 1/2) 0 2
      (by decide) (by decide)⟩

/-! ## C5 -/

lemma initDraw_mem (c : Ctx) (hlb : c.lb ≤ c.ub)
    (hu : ∀ n, 0 ≤ c.u n ∧ c.u n ≤ 1) (n : ℕ) :
    c.lb ≤ initDraw c n ∧ initDraw c n ≤ c.ub := by
  unfold initDraw
  constructor
  · nlinarith [(hu n).1, (hu n).2]
  · nlinarith [(hu n).1, (hu n).2]

lemma initP_pos_box (c : Ctx) (hlb : c.lb ≤ c.ub)
    (hu : ∀ n, 0 ≤ c.u n ∧ c.u n ≤ 1) (gs : GState) :
    InBox c.lb c.ub (initP c gs).1.pos := by
  intro q hq
  have hpos : (initP c gs).1.pos
      = (List.range (dim c)).map fun d => initDraw c (gs.rngIdx + 3 * d) := by
    simp only [initP]
    split_ifs <;> rfl
  rw [hpos] at hq
  rcases List.mem_map.mp hq with ⟨d, _, rfl⟩
  exact initDraw_mem c hlb hu _

lemma initP_pbest_box (c : Ctx) (hlb : c.lb ≤ c.ub)
    (hu : ∀ n, 0 ≤ c.u n ∧ c.u n ≤ 1) (gs : GState) :
    InBox c.lb c.ub (initP c gs).1.pbestPos := by
  have hpp : (initP c gs).1.pbestPos = (initP c gs).1.pos := by
    simp only [initP]
    split_ifs <;> rfl
  rw [hpp]
  exact initP_pos_box c hlb hu gs

lemma initP_gbest_box (c : Ctx) (hlb : c.lb ≤ c.ub)
    (hu : ∀ n, 0 ≤ c.u n ∧ c.u n ≤ 1) (gs : GState)
    (hgs : InBox c.lb c.ub gs.gbestPos ∨ gs.gbestCost = none) :
    InBox c.lb c.ub (initP c gs).2.gbestPos := by
  have hpos := initP_pos_box c hlb hu gs
  have hpos2 : (initP c gs).1.pos
      = (List.range (dim c)).map fun d => initDraw c (gs.rngIdx + 3 * d) := by
    simp only [initP]
    split_ifs <;> rfl
  rw [hpos2] at hpos
  simp only [initP]
  split_ifs with h
  · exact hpos
  · rcases hgs with hbox | hnone
    · exact hbox
    · exfalso
      rw [hnone] at h
      exact h rfl

lemma initList_box_pres (c : Ctx) (hlb : c.lb ≤ c.ub)
    (hu : ∀ n, 0 ≤ c.u n ∧ c.u n ≤ 1) (m : ℕ) :
    ∀ gs : GState, InBox c.lb c.ub gs.gbestPos →
      (∀ p ∈ (initList c m gs).1,
        InBox c.lb c.ub p.pos ∧ InBox c.lb c.ub p.pbestPos) ∧
      InBox c.lb c.ub (initList c m gs).2.gbestPos := by
  induction m with
  | zero => exact fun gs hgs => ⟨by simp [initList], hgs⟩
  | succ m2 ih =>
    intro gs hgs
    have hrec : initList c (m2 + 1) gs
        = ((initP c gs).1 :: (initList c m2 (initP c gs).2).1,
            (initList c m2 (initP c gs).2).2) := rfl
    have hnext := ih (initP c gs).2 (initP_gbest_box c hlb hu gs (Or.inl hgs))
    rw [hrec]
    refine ⟨?_, hnext.2⟩
    intro p hp
    rcases List.mem_cons.mp hp with hh | ht
    · subst hh
      exact ⟨initP_pos_box c hlb hu gs, initP_pbest_box c hlb hu gs⟩
    · exact hnext.1 p ht

lemma initSwarm_box (c : Ctx) (hlb : c.lb ≤ c.ub)
    (hu : ∀ n, 0 ≤ c.u n ∧ c.u n ≤ 1) (hpop : 0 < c.pop) :
    (∀ p ∈ (initSwarm c).particles,
      InBox c.lb c.ub p.pos ∧ InBox c.lb c.ub p.pbestPos) ∧
    InBox c.lb c.ub (initSwarm c).gs.gbestPos := by
  obtain ⟨n, hn⟩ : ∃ n, c.pop = n + 1 := ⟨c.pop - 1, by omega⟩
  have hgs0 : initSwarm c
      = ⟨(initList c c.pop ⟨none, List.replicate (dim c) 0, 0⟩).1,
          (initList c c.pop ⟨none, List.replicate (dim c) 0, 0⟩).2⟩ := rfl
  rw [hgs0, hn]
  have hrec : initList c (n + 1) (⟨none, List.replicate (dim c) 0, 0⟩ : GState)
      = ((initP c ⟨none, List.replicate (dim c) 0, 0⟩).1 ::
          (initList c n (initP c ⟨none, List.replicate (dim c) 0, 0⟩).2).1,
          (initList c n (initP c ⟨none, List.replicate (dim c) 0, 0⟩).2).2) := rfl
  rw [hrec]
  have hgs1 : InBox c.lb c.ub
      (initP c ⟨none, List.replicate (dim c) 0, 0⟩).2.gbestPos :=
    initP_gbest_box c hlb hu _ (Or.inr rfl)
  have hnext := initList_box_pres c hlb hu n _ hgs1
  refine ⟨?_, hnext.2⟩
  intro p hp
  rcases List.mem_cons.mp hp with hh | ht
  · subst hh
    exact ⟨initP_pos_box c hlb hu _, initP_pbest_box c hlb hu _⟩
  · exact hnext.1 p ht

lemma procP_pos_box (c : Ctx) (hlb : c.lb ≤ c.ub) (p : Particle) (gs : GState) :
    InBox c.lb c.ub (procP c p gs).1.pos := by
  intro q hq
  rw [procP_fst_pos] at hq
  rcases List.mem_map.mp hq with ⟨d, _, rfl⟩
  exact project_bounds _ _ _ hlb

lemma procP_pbest_box (c : Ctx) (hlb : c.lb ≤ c.ub) (p : Particle)
    (gs : GState) (hp : InBox c.lb c.ub p.pbestPos) :
    InBox c.lb c.ub (procP c p gs).1.pbestPos := by
  rw [procP_fst_pbestPos]
  split_ifs
  · exact procP_pos_box c hlb p gs
  · exact hp

lemma procP_gbest_box (c : Ctx) (hlb : c.lb ≤ c.ub) (p : Particle)
    (gs : GState) (hgs : InBox c.lb c.ub gs.gbestPos) :
    InBox c.lb c.ub (procP c p gs).2.gbestPos := by
  rw [procP_snd_gbestPos]
  split_ifs
  · exact procP_pos_box c hlb p gs
  · exact hgs

lemma mid_box (c : Ctx) (hlb : c.lb ≤ c.ub) :
    ∀ (ps : List Particle) (gs : GState) (m : ℕ),
      (∀ p ∈ ps, InBox c.lb c.ub p.pos ∧ InBox c.lb c.ub p.pbestPos) →
      InBox c.lb c.ub gs.gbestPos →
      (∀ p ∈ midPS c ps gs m,
        InBox c.lb c.ub p.pos ∧ InBox c.lb c.ub p.pbestPos) ∧
      InBox c.lb c.ub (midGS c ps gs m).gbestPos := by
  intro ps
  induction ps with
  | nil =>
    intro gs m hps hgs
    constructor
    · intro p hp
      cases m <;> simp [midPS] at hp
    · rw [midGS_nil]
      exact hgs
  | cons p0 tl ih =>
    intro gs m hps hgs
    cases m with
    | zero =>
      rw [midPS_zero, midGS_zero]
      exact ⟨hps, hgs⟩
    | succ m2 =>
      have hhead := hps p0 (List.mem_cons_self _ _)
      have htl : ∀ p ∈ tl, InBox c.lb c.ub p.pos ∧ InBox c.lb c.ub p.pbestPos :=
        fun p hp => hps p (List.mem_cons_of_mem _ hp)
      have hgs2 : InBox c.lb c.ub (procP c p0 gs).2.gbestPos :=
        procP_gbest_box c hlb p0 gs hgs
      have hrec := ih (procP c p0 gs).2 m2 htl hgs2
      constructor
      · intro p hp
        simp only [midPS] at hp
        rcases List.mem_cons.mp hp with hh | ht
        · subst hh
          exact ⟨procP_pos_box c hlb p0 gs, procP_pbest_box c hlb p0 gs hhead.2⟩
        · exact hrec.1 p ht
      · simp only [midGS]
        exact hrec.2

lemma afterIter_box (c : Ctx) (hlb : c.lb ≤ c.ub)
    (hu : ∀ n, 0 ≤ c.u n ∧ c.u n ≤ 1) (hpop : 0 < c.pop) (t : ℕ) :
    (∀ p ∈ (afterIter c t).particles,
      InBox c.lb c.ub p.pos ∧ InBox c.lb c.ub p.pbestPos) ∧
    InBox c.lb c.ub (afterIter c t).gs.gbestPos := by
  induction t with
  | zero => exact initSwarm_box c hlb hu hpop
  | succ t2 ih =>
    have hstep : afterIter c (t2 + 1)
        = ⟨(procList c (afterIter c t2).particles (afterIter c t2).gs).1,
            (procList c (afterIter c t2).particles (afterIter c t2).gs).2⟩ := rfl
    rw [hstep, ← midPS_all, ← midGS_all]
    exact mid_box c hlb _ _ _ ih.1 ih.2

lemma initP_gbest_len (c : Ctx) (gs : GState)
    (h : gs.gbestPos.length = dim c) :
    (initP c gs).2.gbestPos.length = dim c := by
  simp only [initP]
  split_ifs
  · simp
  · exact h

lemma procP_gbest_len (c : Ctx) (p : Particle) (gs : GState)
    (h : gs.gbestPos.length = dim c) :
    (procP c p gs).2.gbestPos.length = dim c := by
  rw [procP_snd_gbestPos]
  split_ifs
  · rw [procP_fst_pos]
    simp
  · exact h

lemma initList_gbest_len (c : Ctx) (m : ℕ) :
    ∀ gs : GState, gs.gbestPos.length = dim c →
      (initList c m gs).2.gbestPos.length = dim c := by
  induction m with
  | zero => exact fun gs h => h
  | succ m2 ih =>
    intro gs h
    exact ih _ (initP_gbest_len c gs h)

lemma procList_gbest_len (c : Ctx) (ps : List Particle) :
    ∀ gs : GState, gs.gbestPos.length = dim c →
      (procList c ps gs).2.gbestPos.length = dim c := by
  induction ps with
  | nil => exact fun gs h => h
  | cons p tl ih =>
    intro gs h
    exact ih _ (procP_gbest_len c p gs h)

lemma afterIter_gbest_len (c : Ctx) (t : ℕ) :
    (afterIter c t).gs.gbestPos.length = dim c := by
  induction t with
  | zero =>
    exact initList_gbest_len c c.pop _ (by simp)
  | succ t2 ih =>
    exact procList_gbest_len c _ _ ih

/-- C5: with lb ≤ ub (and draws in [0, 1] as the uniform distributions
guarantee), every particle position and personal best lies in [lb, ub]
after initialization and after every particle update of every round, the
global best position does too, and hence every entry of the matrix
returned by fit lies in [lb, ub]. -/
theorem c5_bounds (cfg : PSOConfig) (Wnp Xnp : NpArray) (u : ℕ → ℚ)
    (hlb : cfg.lb ≤ cfg.ub) (hu : ∀ n, 0 ≤ u n ∧ u n ≤ 1) :
    (∀ (g k s : ℕ) (W X : ℕ → ℕ → ℚ) (t m : ℕ),
      (∀ p ∈ (midSwarm (mkCtx cfg g k s W X u) t m).particles,
        InBox cfg.lb cfg.ub p.pos ∧ InBox cfg.lb cfg.ub p.pbestPos) ∧
      InBox cfg.lb cfg.ub (midSwarm (mkCtx cfg g k s W X u) t m).gs.gbestPos) ∧
    (∀ H, fit cfg Wnp Xnp u = .ok H →
      ∀ row ∈ H, ∀ q ∈ row, cfg.lb ≤ q ∧ q ≤ cfg.ub) := by
  have hbox : ∀ (g k s : ℕ) (W X : ℕ → ℕ → ℚ) (t m : ℕ),
      (∀ p ∈ (midSwarm (mkCtx cfg g k s W X u) t m).particles,
        InBox cfg.lb cfg.ub p.pos ∧ InBox cfg.lb cfg.ub p.pbestPos) ∧
      InBox cfg.lb cfg.ub (midSwarm (mkCtx cfg g k s W X u) t m).gs.gbestPos := by
    intro g k s W X t m
    have hpop : 0 < (mkCtx cfg g k s W X u).pop :=
      Nat.lt_of_lt_of_le (by omega) (popNat_ge_two cfg)
    have hprev := afterIter_box (mkCtx cfg g k s W X u) hlb hu hpop t
    exact mid_box (mkCtx cfg g k s W X u) hlb _ _ m hprev.1 hprev.2
  refine ⟨hbox, ?_⟩
  intro H hfit row hrow q hq
  by_cases h1 : Wnp.shape.length ≠ 2 ∨ Xnp.shape.length ≠ 2
  · rw [fit, if_pos h1] at hfit
    exact absurd hfit (by simp)
  · by_cases h2 : Wnp.shape.getD 0 0 ≠ Xnp.shape.getD 0 0
    · simp only [fit, if_neg h1] at hfit
      rw [if_pos h2] at hfit
      exact absurd hfit (by simp)
    · simp only [fit, if_neg h1] at hfit
      rw [if_neg h2] at hfit
      have hH : H = fitCore (mkCtx cfg (Wnp.shape.getD 0 0)
          (Wnp.shape.getD 1 0) (Xnp.shape.getD 1 0)
          (mapMat (Wnp.shape.getD 0 0) Wnp.data)
          (mapMat (Xnp.shape.getD 0 0) Xnp.data) u) := by
        cases hfit
        rfl
      subst hH
      rw [fitCore, extractH] at hrow
      rcases List.mem_map.mp hrow with ⟨i, hi, rfl⟩
      rcases List.mem_map.mp hq with ⟨j, hj, rfl⟩
      have hi2 : i < Wnp.shape.getD 1 0 := List.mem_range.mp hi
      have hj2 : j < Xnp.shape.getD 1 0 := List.mem_range.mp hj
      set c2 := mkCtx cfg (Wnp.shape.getD 0 0) (Wnp.shape.getD 1 0)
        (Xnp.shape.getD 1 0) (mapMat (Wnp.shape.getD 0 0) Wnp.data)
        (mapMat (Xnp.shape.getD 0 0) Xnp.data) u with hc2
      have hidx : i * Xnp.shape.getD 1 0 + j < dim c2 := by
        have hk := flat_index_lt j i (Xnp.shape.getD 1 0) (Wnp.shape.getD 1 0)
          hj2 hi2
        exact lt_of_lt_of_eq hk (Nat.mul_comm _ _)
      have hlen : (afterIter c2 c2.iters).gs.gbestPos.length = dim c2 :=
        afterIter_gbest_len c2 c2.iters
      have hmem : (afterIter c2 c2.iters).gs.gbestPos.getD
          (i * Xnp.shape.getD 1 0 + j) 0
          ∈ (afterIter c2 c2.iters).gs.gbestPos := by
        rw [List.getD_eq_getElem _ _ (by rw [hlen]; exact hidx)]
        exact List.getElem_mem _
      have hboxfin := (hbox (Wnp.shape.getD 0 0) (Wnp.shape.getD 1 0)
        (Xnp.shape.getD 1 0) (mapMat (Wnp.shape.getD 0 0) Wnp.data)
        (mapMat (Xnp.shape.getD 0 0) Xnp.data) c2.iters 0).2
      rw [midSwarm, midPS_zero, midGS_zero] at hboxfin
      exact hboxfin _ hmem

/-- Witness for C5: the returned 1 x 1 matrix of a concrete run has its
entry inside [0, 10]. -/
theorem c5_bounds_witness :
    ((0 : ℚ) ≤ 10 ∧ (0 : ℚ) ≤ 1/2 ∧ (1/2 : ℚ) ≤ 1) ∧
    (∀ H, fit ⟨2, 1, 1/2, 1, 1, 0, 10, false, 1⟩
        ⟨[1, 1], fun _ => 1⟩ ⟨[1, 1], fun _ => 2⟩ (fun _ => 1/2) = .ok H →
      ∀ row ∈ H, ∀ q ∈ row, (0 : ℚ) ≤ q ∧ q ≤ 10) :=
  ⟨⟨by norm_num, by norm_num, by norm_num⟩,
    (c5_bounds ⟨2, 1, 1/2, 1, 1, 0, 10, false, 1⟩
      ⟨[1, 1], fun _ => 1⟩ ⟨[1, 1], fun _ => 2⟩ (fun _ => 1/2)
      (by norm_num) (fun n => ⟨by norm_num, by norm_num⟩)).2⟩

/-! ## C10 -/

lemma procP_inv (c : Ctx) (A B : List Particle) (p : Particle) (gs : GState)
    (hp : p.pbestCost = eval_cost c p.pbestPos)
    (hmin : gs.gbestCost = minC (pbCosts (A ++ p :: B)))
    (hatt : ∀ v, gs.gbestCost = some v → v = eval_cost c gs.gbestPos) :
    (procP c p gs).1.pbestCost = eval_cost c (procP c p gs).1.pbestPos ∧
    (procP c p gs).2.gbestCost = minC (pbCosts (A ++ (procP c p gs).1 :: B)) ∧
    (∀ v, (procP c p gs).2.gbestCost = some v →
      v = eval_cost c (procP c p gs).2.gbestPos) := by
  have hpc := procP_fst_pbestCost c p gs
  have hpp := procP_fst_pbestPos c p gs
  have hgc := procP_snd_gbestCost c p gs
  have hgp := procP_snd_gbestPos c p gs
  set f := eval_cost c ((procP c p gs).1.pos) with hfdef
  have hmemP : p.pbestCost ∈ pbCosts (A ++ p :: B) := by
    rw [pbCosts_append, pbCosts_cons]
    exact List.mem_append_right _ (List.mem_cons_self _ _)
  have hne : pbCosts (A ++ p :: B) ≠ [] := List.ne_nil_of_mem hmemP
  obtain ⟨gc, hgc1, hgc2, hgc3⟩ := minC_mem _ hne
  have hgb : gs.gbestCost = some gc := by
    rw [hmin, hgc1]
  by_cases himp : f < p.pbestCost
  · by_cases hbeat : ltInf f gs.gbestCost = true
    · have hbeat2 : f < gc := by
        rw [hgb] at hbeat
        simpa [ltInf] using hbeat
      have hcond : f < p.pbestCost ∧ ltInf f gs.gbestCost = true := ⟨himp, hbeat⟩
      rw [if_pos hcond] at hgc hgp
      rw [if_pos himp] at hpc hpp
      refine ⟨by rw [hpc, hpp], ?_, ?_⟩
      · rw [hgc]
        refine (minC_eq_of _ f ?_ ?_).symm
        · rw [pbCosts_append, pbCosts_cons, hpc]
          exact List.mem_append_right _ (List.mem_cons_self _ _)
        · intro x hx
          rw [pbCosts_append, pbCosts_cons, hpc] at hx
          rcases List.mem_append.mp hx with hxa | hxr
          · refine le_trans (le_of_lt hbeat2) (hgc3 x ?_)
            rw [pbCosts_append]
            exact List.mem_append_left _ hxa
          · rcases List.mem_cons.mp hxr with hxf | hxb
            · rw [hxf]
            · refine le_trans (le_of_lt hbeat2) (hgc3 x ?_)
              rw [pbCosts_append, pbCosts_cons]
              exact List.mem_append_right _ (List.mem_cons_of_mem _ hxb)
      · intro v hv
        rw [hgc] at hv
        rw [hgp]
        exact (Option.some.inj hv).symm.trans hfdef
    · have hge : gc ≤ f := by
        rw [hgb] at hbeat
        simpa [ltInf] using hbeat
      have hcond : ¬ (f < p.pbestCost ∧ ltInf f gs.gbestCost = true) := by
        intro hcon
        exact hbeat hcon.2
      rw [if_neg hcond] at hgc hgp
      rw [if_pos himp] at hpc hpp
      refine ⟨by rw [hpc, hpp], ?_, ?_⟩
      · rw [hgc, hgb]
        refine (minC_eq_of _ gc ?_ ?_).symm
        · have hgcin : gc ∈ pbCosts A ∨ gc = p.pbestCost ∨ gc ∈ pbCosts B := by
            rw [pbCosts_append, pbCosts_cons] at hgc2
            rcases List.mem_append.mp hgc2 with h | h
            · exact Or.inl h
            · rcases List.mem_cons.mp h with h | h
              · exact Or.inr (Or.inl h)
              · exact Or.inr (Or.inr h)
          rw [pbCosts_append, pbCosts_cons]
          rcases hgcin with h | h | h
          · exact List.mem_append_left _ h
          · exfalso
            rw [h] at hge
            exact absurd himp (not_lt.mpr hge)
          · exact List.mem_append_right _ (List.mem_cons_of_mem _ h)
        · intro x hx
          rw [pbCosts_append, pbCosts_cons, hpc] at hx
          rcases List.mem_append.mp hx with hxa | hxr
          · refine hgc3 x ?_
            rw [pbCosts_append]
            exact List.mem_append_left _ hxa
          · rcases List.mem_cons.mp hxr with hxf | hxb
            · rw [hxf]
              exact hge
            · refine hgc3 x ?_
              rw [pbCosts_append, pbCosts_cons]
              exact List.mem_append_right _ (List.mem_cons_of_mem _ hxb)
      · intro v hv
        rw [hgc] at hv
        rw [hgp]
        exact hatt v hv
  · have hcond : ¬ (f < p.pbestCost ∧ ltInf f gs.gbestCost = true) := by
      intro hcon
      exact himp hcon.1
    rw [if_neg hcond] at hgc hgp
    rw [if_neg himp] at hpc hpp
    refine ⟨by rw [hpc, hpp]; exact hp, ?_, ?_⟩
    · rw [hgc, hmin, pbCosts_append, pbCosts_cons, pbCosts_append,
        pbCosts_cons, hpc]
    · intro v hv
      rw [hgc] at hv
      rw [hgp]
      exact hatt v hv

lemma mid_inv (c : Ctx) :
    ∀ (ps done : List Particle) (gs : GState) (m : ℕ),
      (∀ p ∈ done ++ ps, p.pbestCost = eval_cost c p.pbestPos) →
      gs.gbestCost = minC (pbCosts (done ++ ps)) →
      (∀ v, gs.gbestCost = some v → v = eval_cost c gs.gbestPos) →
      (∀ p ∈ done ++ midPS c ps gs m, p.pbestCost = eval_cost c p.pbestPos) ∧
      (midGS c ps gs m).gbestCost = minC (pbCosts (done ++ midPS c ps gs m)) ∧
      (∀ v, (midGS c ps gs m).gbestCost = some v →
        v = eval_cost c (midGS c ps gs m).gbestPos) := by
  intro ps
  induction ps with
  | nil =>
    intro done gs m hP hmin hatt
    have hps : midPS c [] gs m = [] := by cases m <;> rfl
    rw [hps, midGS_nil]
    rw [List.append_nil] at hmin ⊢
    rw [List.append_nil] at hP
    exact ⟨hP, hmin, hatt⟩
  | cons p0 tl ih =>
    intro done gs m hP hmin hatt
    cases m with
    | zero =>
      rw [midPS_zero, midGS_zero]
      exact ⟨hP, hmin, hatt⟩
    | succ m2 =>
      have hp0 : p0.pbestCost = eval_cost c p0.pbestPos :=
        hP p0 (List.mem_append_right _ (List.mem_cons_self _ _))
      have hstep := procP_inv c done tl p0 gs hp0 hmin hatt
      have hP2 : ∀ p ∈ (done ++ [(procP c p0 gs).1]) ++ tl,
          p.pbestCost = eval_cost c p.pbestPos := by
        intro p hp
        rcases List.mem_append.mp hp with hd | ht
        · rcases List.mem_append.mp hd with hd2 | hs
          · exact hP p (List.mem_append_left _ hd2)
          · rw [List.mem_singleton.mp hs]
            exact hstep.1
        · exact hP p (List.mem_append_right _ (List.mem_cons_of_mem _ ht))
      have hmin2 : (procP c p0 gs).2.gbestCost
          = minC (pbCosts ((done ++ [(procP c p0 gs).1]) ++ tl)) := by
        rw [List.append_assoc, List.singleton_append]
        exact hstep.2.1
      have hres := ih (done ++ [(procP c p0 gs).1]) (procP c p0 gs).2 m2
        hP2 hmin2 hstep.2.2
      have hasm : (done ++ [(procP c p0 gs).1])
          ++ midPS c tl (procP c p0 gs).2 m2
          = done ++ ((procP c p0 gs).1 :: midPS c tl (procP c p0 gs).2 m2) := by
        rw [List.append_assoc, List.singleton_append]
      rw [hasm] at hres
      simp only [midPS, midGS]
      exact hres

lemma initP_inv (c : Ctx) (done : List Particle) (gs : GState)
    (hmin : gs.gbestCost = minC (pbCosts done))
    (hatt : ∀ v, gs.gbestCost = some v → v = eval_cost c gs.gbestPos) :
    (initP c gs).1.pbestCost = eval_cost c (initP c gs).1.pbestPos ∧
    (initP c gs).2.gbestCost = minC (pbCosts (done ++ [(initP c gs).1])) ∧
    (∀ v, (initP c gs).2.gbestCost = some v →
      v = eval_cost c (initP c gs).2.gbestPos) := by
  have hfst := initP_fst_pbest c gs
  have hgc := initP_snd_gbestCost c gs
  have hgp := initP_snd_gbestPos c gs
  set pc := eval_cost c ((initP c gs).1.pos) with hpcdef
  refine ⟨by rw [hfst.2, hfst.1], ?_, ?_⟩
  · by_cases hbeat : ltInf pc gs.gbestCost = true
    · rw [if_pos hbeat] at hgc
      rw [hgc]
      refine (minC_eq_of _ pc ?_ ?_).symm
      · rw [pbCosts_append, pbCosts_cons, hfst.2]
        exact List.mem_append_right _ (List.mem_cons_self _ _)
      · intro x hx
        rw [pbCosts_append, pbCosts_cons, hfst.2] at hx
        rcases List.mem_append.mp hx with hxd | hxr
        · cases hgb : gs.gbestCost with
          | none =>
            exfalso
            rw [hmin] at hgb
            have hdone : pbCosts done = [] := (minC_eq_none_iff _).mp hgb
            rw [hdone] at hxd
            exact absurd hxd (List.not_mem_nil x)
          | some gc =>
            have hlt : pc < gc := by
              rw [hgb] at hbeat
              simpa [ltInf] using hbeat
            have hgcle : gc ≤ x := by
              obtain ⟨w, hw1, _, hw3⟩ := minC_mem (pbCosts done)
                (List.ne_nil_of_mem hxd)
              have : some gc = some w := by
                rw [← hw1, ← hmin, hgb]
              rw [Option.some.inj this]
              exact hw3 x hxd
            exact le_trans (le_of_lt hlt) hgcle
        · rw [List.mem_singleton.mp hxr]
    · rw [if_neg hbeat] at hgc
      cases hgb : gs.gbestCost with
      | none =>
        exfalso
        apply hbeat
        rw [hgb]
        rfl
      | some gc =>
        have hge : gc ≤ pc := by
          rw [hgb] at hbeat
          simpa [ltInf] using hbeat
        have hdne : pbCosts done ≠ [] := by
          intro hcon
          rw [hmin, hcon] at hgb
          simp [minC] at hgb
        obtain ⟨w, hw1, hw2, hw3⟩ := minC_mem _ hdne
        have hwgc : w = gc := by
          have : some gc = some w := by rw [← hw1, ← hmin, hgb]
          exact (Option.some.inj this).symm
        subst hwgc
        rw [hgc, hgb]
        refine (minC_eq_of _ w ?_ ?_).symm
        · rw [pbCosts_append]
          exact List.mem_append_left _ hw2
        · intro x hx
          rw [pbCosts_append, pbCosts_cons, hfst.2] at hx
          rcases List.mem_append.mp hx with hxd | hxr
          · exact hw3 x hxd
          · rw [List.mem_singleton.mp hxr]
            exact hge
  · intro v hv
    by_cases hbeat : ltInf pc gs.gbestCost = true
    · rw [if_pos hbeat] at hgc
      rw [if_pos hbeat] at hgp
      rw [hgc] at hv
      rw [hgp]
      exact (Option.some.inj hv).symm.trans hpcdef
    · rw [if_neg hbeat] at hgc
      rw [if_neg hbeat] at hgp
      rw [hgc] at hv
      rw [hgp]
      exact hatt v hv

lemma init_inv (c : Ctx) :
    ∀ (m : ℕ) (done : List Particle) (gs : GState),
      (∀ p ∈ done, p.pbestCost = eval_cost c p.pbestPos) →
      gs.gbestCost = minC (pbCosts done) →
      (∀ v, gs.gbestCost = some v → v = eval_cost c gs.gbestPos) →
      (∀ p ∈ done ++ (initList c m gs).1,
        p.pbestCost = eval_cost c p.pbestPos) ∧
      (initList c m gs).2.gbestCost
        = minC (pbCosts (done ++ (initList c m gs).1)) ∧
      (∀ v, (initList c m gs).2.gbestCost = some v →
        v = eval_cost c (initList c m gs).2.gbestPos) := by
  intro m
  induction m with
  | zero =>
    intro done gs hP hmin hatt
    have h0 : (initList c 0 gs).1 = [] := rfl
    refine ⟨?_, ?_, hatt⟩
    · intro p hp
      rw [h0, List.append_nil] at hp
      exact hP p hp
    · rw [h0, List.append_nil]
      exact hmin
  | succ m2 ih =>
    intro done gs hP hmin hatt
    have hstep := initP_inv c done gs hmin hatt
    have hP2 : ∀ p ∈ done ++ [(initP c gs).1],
        p.pbestCost = eval_cost c p.pbestPos := by
      intro p hp
      rcases List.mem_append.mp hp with hd | hs
      · exact hP p hd
      · rw [List.mem_singleton.mp hs]
        exact hstep.1
    have hres := ih (done ++ [(initP c gs).1]) (initP c gs).2
      hP2 hstep.2.1 hstep.2.2
    have hrec : initList c (m2 + 1) gs
        = ((initP c gs).1 :: (initList c m2 (initP c gs).2).1,
            (initList c m2 (initP c gs).2).2) := rfl
    rw [hrec]
    have hasm : (done ++ [(initP c gs).1]) ++ (initList c m2 (initP c gs).2).1
        = done ++ ((initP c gs).1 :: (initList c m2 (initP c gs).2).1) := by
      rw [List.append_assoc, List.singleton_append]
    rw [hasm] at hres
    exact hres

lemma afterIter_inv (c : Ctx) (t : ℕ) :
    (∀ p ∈ (afterIter c t).particles,
      p.pbestCost = eval_cost c p.pbestPos) ∧
    (afterIter c t).gs.gbestCost = minC (pbCosts (afterIter c t).particles) ∧
    (∀ v, (afterIter c t).gs.gbestCost = some v →
      v = eval_cost c (afterIter c t).gs.gbestPos) := by
  induction t with
  | zero =>
    have hres := init_inv c c.pop [] ⟨none, List.replicate (dim c) 0, 0⟩
      (by intro p hp; exact absurd hp (List.not_mem_nil p))
      (by rfl)
      (by intro v hv; exact Option.noConfusion hv)
    rw [List.nil_append] at hres
    exact hres
  | succ t2 ih =>
    have hstep : afterIter c (t2 + 1)
        = ⟨(procList c (afterIter c t2).particles (afterIter c t2).gs).1,
            (procList c (afterIter c t2).particles (afterIter c t2).gs).2⟩ := rfl
    rw [hstep, ← midPS_all, ← midGS_all]
    have hres := mid_inv c (afterIter c t2).particles [] (afterIter c t2).gs
      (afterIter c t2).particles.length
      (by rw [List.nil_append]; exact ih.1)
      (by rw [List.nil_append]; exact ih.2.1)
      ih.2.2
    rw [List.nil_append] at hres
    exact hres

/-- C10: after initialization and after every individual particle update,
each particle has personal best cost equal to the evaluator cost of its personal
best position, the global best cost is the minimum personal best cost over
all particles, and the global best position attains it. -/
theorem c10_best_tracking (c : Ctx) (t m : ℕ) :
    (∀ p ∈ (midSwarm c t m).particles,
      p.pbestCost = eval_cost c p.pbestPos) ∧
    (midSwarm c t m).gs.gbestCost = minC (pbCosts (midSwarm c t m).particles) ∧
    (∀ v, (midSwarm c t m).gs.gbestCost = some v →
      v = eval_cost c (midSwarm c t m).gs.gbestPos) := by
  have hbase := afterIter_inv c t
  have hres := mid_inv c (afterIter c t).particles [] (afterIter c t).gs m
    (by rw [List.nil_append]; exact hbase.1)
    (by rw [List.nil_append]; exact hbase.2.1)
    hbase.2.2
  rw [List.nil_append] at hres
  exact hres

/-- Witness for C10: the min-relation instantiated after round 1, particle 1
of a concrete run. -/
theorem c10_best_tracking_witness :
    (midSwarm (mkCtx ⟨2, 1, 1/2, 1, 1, 0, 10, false, 1⟩ 1 1 1
        (fun _ _ => 1) (fun _ _ => 2) (fun _ => 1/2)) 1 1).gs.gbestCost
      = minC (pbCosts (midSwarm (mkCtx ⟨2, 1, 1/2, 1, 1, 0, 10, false, 1⟩ 1 1 1
          (fun _ _ => 1) (fun _ _ => 2) (fun _ => 1/2)) 1 1).particles) :=
  (c10_best_tracking (mkCtx ⟨2, 1, 1/2, 1, 1, 0, 10, false, 1⟩ 1 1 1
    (fun _ _ => 1) (fun _ _ => 2) (fun _ => 1/2)) 1 1).2.1

/-! ## C8 -/

lemma amin_le (c : Ctx) (m : ℕ) : amin c m ≤ m := by
  induction m with
  | zero => exact le_refl 0
  | succ m2 ih =>
    simp only [amin]
    split_ifs
    · exact le_refl _
    · exact le_trans ih (Nat.le_succ m2)

lemma amin_min (c : Ctx) (m : ℕ) :
    ∀ j ≤ m, initCost c (amin c m) ≤ initCost c j := by
  induction m with
  | zero =>
    intro j hj
    rw [Nat.le_zero.mp hj]
    exact le_refl _
  | succ m2 ih =>
    intro j hj
    by_cases h : initCost c (m2 + 1) < initCost c (amin c m2)
    · simp only [amin, if_pos h]
      rcases Nat.lt_or_ge j (m2 + 1) with hlt | hge
      · exact le_trans (le_of_lt h) (ih j (Nat.lt_succ_iff.mp hlt))
      · rw [le_antisymm hj hge]
    · simp only [amin, if_neg h]
      rcases Nat.lt_or_ge j (m2 + 1) with hlt | hge
      · exact ih j (Nat.lt_succ_iff.mp hlt)
      · rw [le_antisymm hj hge]
        exact not_lt.mp h

lemma amin_first (c : Ctx) (m : ℕ) :
    ∀ j < amin c m, initCost c (amin c m) < initCost c j := by
  induction m with
  | zero =>
    intro j hj
    exact absurd hj (Nat.not_lt_zero j)
  | succ m2 ih =>
    intro j hj
    by_cases h : initCost c (m2 + 1) < initCost c (amin c m2)
    · simp only [amin, if_pos h] at hj ⊢
      exact lt_of_lt_of_le h (amin_min c m2 j (Nat.lt_succ_iff.mp hj))
    · simp only [amin, if_neg h] at hj ⊢
      exact ih j hj

lemma initRun (c : Ctx) (m : ℕ) :
    (initList c (m + 1) ⟨none, List.replicate (dim c) 0, 0⟩).2
      = ⟨some (initCost c (amin c m)), initPos c (amin c m),
          3 * dim c * (m + 1)⟩ := by
  induction m with
  | zero =>
    have h1 : (initList c 1 (⟨none, List.replicate (dim c) 0, 0⟩ : GState)).2
        = (initP c ⟨none, List.replicate (dim c) 0, 0⟩).2 := rfl
    have hpos : (initP c (⟨none, List.replicate (dim c) 0, 0⟩ : GState)).1.pos
        = initPos c 0 := by
      rw [initP_fst_pos, initPos]
      simp
    have hcond : ltInf
        (eval_cost c ((initP c (⟨none, List.replicate (dim c) 0, 0⟩ : GState)).1.pos))
        (⟨none, List.replicate (dim c) 0, 0⟩ : GState).gbestCost = true := rfl
    have e1 : (initP c (⟨none, List.replicate (dim c) 0, 0⟩ : GState)).2.gbestCost
        = some (initCost c (amin c 0)) := by
      rw [initP_snd_gbestCost, if_pos hcond, hpos]
      rfl
    have e2 : (initP c (⟨none, List.replicate (dim c) 0, 0⟩ : GState)).2.gbestPos
        = initPos c (amin c 0) := by
      rw [initP_snd_gbestPos, if_pos hcond, hpos]
      rfl
    have e3 : (initP c (⟨none, List.replicate (dim c) 0, 0⟩ : GState)).2.rngIdx
        = 3 * dim c * (0 + 1) := by
      rw [initP_rng]
      simp
    rw [h1, show (initP c (⟨none, List.replicate (dim c) 0, 0⟩ : GState)).2
      = ⟨(initP c (⟨none, List.replicate (dim c) 0, 0⟩ : GState)).2.gbestCost,
          (initP c (⟨none, List.replicate (dim c) 0, 0⟩ : GState)).2.gbestPos,
          (initP c (⟨none, List.replicate (dim c) 0, 0⟩ : GState)).2.rngIdx⟩
      from rfl, e1, e2, e3]
  | succ m2 ih =>
    have hsnoc : (initList c (m2 + 1 + 1) (⟨none, List.replicate (dim c) 0, 0⟩ : GState)).2
        = (initP c (initList c (m2 + 1)
            (⟨none, List.replicate (dim c) 0, 0⟩ : GState)).2).2 := by
      rw [initList_succ_back]
    rw [hsnoc, ih]
    have hpos2 : (initP c (⟨some (initCost c (amin c m2)), initPos c (amin c m2),
        3 * dim c * (m2 + 1)⟩ : GState)).1.pos = initPos c (m2 + 1) := by
      rw [initP_fst_pos]
      rfl
    have hpc : eval_cost c ((initP c (⟨some (initCost c (amin c m2)),
        initPos c (amin c m2), 3 * dim c * (m2 + 1)⟩ : GState)).1.pos)
        = initCost c (m2 + 1) := by
      rw [hpos2]
      rfl
    have hcond : ltInf (eval_cost c ((initP c (⟨some (initCost c (amin c m2)),
        initPos c (amin c m2), 3 * dim c * (m2 + 1)⟩ : GState)).1.pos))
        (⟨some (initCost c (amin c m2)), initPos c (amin c m2),
          3 * dim c * (m2 + 1)⟩ : GState).gbestCost
        = decide (initCost c (m2 + 1) < initCost c (amin c m2)) := by
      rw [hpc]
      rfl
    have e3 : (initP c (⟨some (initCost c (amin c m2)), initPos c (amin c m2),
        3 * dim c * (m2 + 1)⟩ : GState)).2.rngIdx = 3 * dim c * (m2 + 1 + 1) := by
      rw [initP_rng]
      show 3 * dim c * (m2 + 1) + 3 * dim c = 3 * dim c * (m2 + 1 + 1)
      ring
    have hassemble : (initP c (⟨some (initCost c (amin c m2)),
        initPos c (amin c m2), 3 * dim c * (m2 + 1)⟩ : GState)).2
        = ⟨(initP c (⟨some (initCost c (amin c m2)), initPos c (amin c m2),
              3 * dim c * (m2 + 1)⟩ : GState)).2.gbestCost,
            (initP c (⟨some (initCost c (amin c m2)), initPos c (amin c m2),
              3 * dim c * (m2 + 1)⟩ : GState)).2.gbestPos,
            (initP c (⟨some (initCost c (amin c m2)), initPos c (amin c m2),
              3 * dim c * (m2 + 1)⟩ : GState)).2.rngIdx⟩ := rfl
    by_cases hlt : initCost c (m2 + 1) < initCost c (amin c m2)
    · have hcondT : ltInf (eval_cost c ((initP c (⟨some (initCost c (amin c m2)),
          initPos c (amin c m2), 3 * dim c * (m2 + 1)⟩ : GState)).1.pos))
          (⟨some (initCost c (amin c m2)), initPos c (amin c m2),
            3 * dim c * (m2 + 1)⟩ : GState).gbestCost = true := by
        rw [hcond]
        exact decide_eq_true hlt
      have e1 : (initP c (⟨some (initCost c (amin c m2)), initPos c (amin c m2),
          3 * dim c * (m2 + 1)⟩ : GState)).2.gbestCost
          = some (initCost c (amin c (m2 + 1))) := by
        rw [initP_snd_gbestCost, if_pos hcondT, hpc]
        simp only [amin, if_pos hlt]
      have e2 : (initP c (⟨some (initCost c (amin c m2)), initPos c (amin c m2),
          3 * dim c * (m2 + 1)⟩ : GState)).2.gbestPos
          = initPos c (amin c (m2 + 1)) := by
        rw [initP_snd_gbestPos, if_pos hcondT, hpos2]
        simp only [amin, if_pos hlt]
      rw [hassemble, e1, e2, e3]
    · have hcondF : ¬ ltInf (eval_cost c ((initP c (⟨some (initCost c (amin c m2)),
          initPos c (amin c m2), 3 * dim c * (m2 + 1)⟩ : GState)).1.pos))
          (⟨some (initCost c (amin c m2)), initPos c (amin c m2),
            3 * dim c * (m2 + 1)⟩ : GState).gbestCost = true := by
        rw [hcond]
        simp [hlt]
      have e1 : (initP c (⟨some (initCost c (amin c m2)), initPos c (amin c m2),
          3 * dim c * (m2 + 1)⟩ : GState)).2.gbestCost
          = some (initCost c (amin c (m2 + 1))) := by
        rw [initP_snd_gbestCost, if_neg hcondF]
        simp only [amin, if_neg hlt]
      have e2 : (initP c (⟨some (initCost c (amin c m2)), initPos c (amin c m2),
          3 * dim c * (m2 + 1)⟩ : GState)).2.gbestPos
          = initPos c (amin c (m2 + 1)) := by
        rw [initP_snd_gbestPos, if_neg hcondF]
        simp only [amin, if_neg hlt]
      rw [hassemble, e1, e2, e3]

/-- C8: with max_iters = 0, fit performs no update round: it returns the
reshaped position of the particle of the initial random swarm with minimum
initial cost, ties broken by the first particle in scan order attaining
that minimum. -/
theorem c8_zero_iterations (cfg : PSOConfig) (Wnp Xnp : NpArray) (u : ℕ → ℚ)
    (hiters : cfg.max_iters = 0)
    (h1 : Wnp.shape.length = 2) (h2 : Xnp.shape.length = 2)
    (h3 : Wnp.shape.getD 0 0 = Xnp.shape.getD 0 0) :
    ∃ i0 < popNat cfg,
      (∀ j < popNat cfg,
        initCost (mkCtx cfg (Wnp.shape.getD 0 0) (Wnp.shape.getD 1 0)
          (Xnp.shape.getD 1 0) (mapMat (Wnp.shape.getD 0 0) Wnp.data)
          (mapMat (Xnp.shape.getD 0 0) Xnp.data) u) i0
        ≤ initCost (mkCtx cfg (Wnp.shape.getD 0 0) (Wnp.shape.getD 1 0)
          (Xnp.shape.getD 1 0) (mapMat (Wnp.shape.getD 0 0) Wnp.data)
          (mapMat (Xnp.shape.getD 0 0) Xnp.data) u) j) ∧
      (∀ j < i0,
        initCost (mkCtx cfg (Wnp.shape.getD 0 0) (Wnp.shape.getD 1 0)
          (Xnp.shape.getD 1 0) (mapMat (Wnp.shape.getD 0 0) Wnp.data)
          (mapMat (Xnp.shape.getD 0 0) Xnp.data) u) i0
        < initCost (mkCtx cfg (Wnp.shape.getD 0 0) (Wnp.shape.getD 1 0)
          (Xnp.shape.getD 1 0) (mapMat (Wnp.shape.getD 0 0) Wnp.data)
          (mapMat (Xnp.shape.getD 0 0) Xnp.data) u) j) ∧
      fit cfg Wnp Xnp u
        = .ok (extractH (Wnp.shape.getD 1 0) (Xnp.shape.getD 1 0)
            (initPos (mkCtx cfg (Wnp.shape.getD 0 0) (Wnp.shape.getD 1 0)
              (Xnp.shape.getD 1 0) (mapMat (Wnp.shape.getD 0 0) Wnp.data)
              (mapMat (Xnp.shape.getD 0 0) Xnp.data) u) i0)) := by
  set c2 := mkCtx cfg (Wnp.shape.getD 0 0) (Wnp.shape.getD 1 0)
    (Xnp.shape.getD 1 0) (mapMat (Wnp.shape.getD 0 0) Wnp.data)
    (mapMat (Xnp.shape.getD 0 0) Xnp.data) u with hc2
  have hpop2 : c2.pop = popNat cfg := rfl
  have hpopge : 2 ≤ popNat cfg := popNat_ge_two cfg
  obtain ⟨m, hm⟩ : ∃ m, popNat cfg = m + 1 := ⟨popNat cfg - 1, by omega⟩
  refine ⟨amin c2 m, ?_, ?_, ?_, ?_⟩
  · rw [hm]
    exact Nat.lt_succ_of_le (amin_le c2 m)
  · intro j hj
    rw [hm] at hj
    exact amin_min c2 m j (Nat.lt_succ_iff.mp hj)
  · intro j hj
    exact amin_first c2 m j hj
  · have hc1 : ¬ (Wnp.shape.length ≠ 2 ∨ Xnp.shape.length ≠ 2) := by
      simp [h1, h2]
    have hc3 : ¬ Wnp.shape.getD 0 0 ≠ Xnp.shape.getD 0 0 := by
      simp only [ne_eq, not_not]
      exact h3
    have hfit : fit cfg Wnp Xnp u = .ok (fitCore c2) := by
      rw [hc2]
      simp only [fit, if_neg hc1]
      rw [if_neg hc3]
    rw [hfit]
    have hit : c2.iters = 0 := by
      show itersNat cfg = 0
      rw [itersNat, hiters]
      rfl
    have hcore : fitCore c2
        = extractH c2.k c2.s (initSwarm c2).gs.gbestPos := by
      rw [fitCore, hit]
      rfl
    have hgbest : (initSwarm c2).gs.gbestPos = initPos c2 (amin c2 m) := by
      show (initList c2 c2.pop ⟨none, List.replicate (dim c2) 0, 0⟩).2.gbestPos
        = initPos c2 (amin c2 m)
      rw [hpop2, hm, initRun]
    rw [hcore, hgbest]
    rfl

/-- Witness for C8 on a concrete zero-iteration run with a 1 x 1 problem. -/
theorem c8_zero_iterations_witness :
    ∃ i0 < popNat ⟨2, 0, 1/2, 1, 1, 0, 10, false, 1⟩,
      (∀ j < popNat ⟨2, 0, 1/2, 1, 1, 0, 10, false, 1⟩,
        initCost (mkCtx ⟨2, 0, 1/2, 1, 1, 0, 10, false, 1⟩ 1 1 1
          (mapMat 1 (fun _ => 1)) (mapMat 1 (fun _ => 2)) (fun _ => 1/2)) i0
        ≤ initCost (mkCtx ⟨2, 0, 1/2, 1, 1, 0, 10, false, 1⟩ 1 1 1
          (mapMat 1 (fun _ => 1)) (mapMat 1 (fun _ => 2)) (fun _ => 1/2)) j) ∧
      (∀ j < i0,
        initCost (mkCtx ⟨2, 0, 1/2, 1, 1, 0, 10, false, 1⟩ 1 1 1
          (mapMat 1 (fun _ => 1)) (mapMat 1 (fun _ => 2)) (fun _ => 1/2)) i0
        < initCost (mkCtx ⟨2, 0, 1/2, 1, 1, 0, 10, false, 1⟩ 1 1 1
          (mapMat 1 (fun _ => 1)) (mapMat 1 (fun _ => 2)) (fun _ => 1/2)) j) ∧
      fit ⟨2, 0, 1/2, 1, 1, 0, 10, false, 1⟩
          ⟨[1, 1], fun _ => 1⟩ ⟨[1, 1], fun _ => 2⟩ (fun _ => 1/2)
        = .ok (extractH 1 1
            (initPos (mkCtx ⟨2, 0, 1/2, 1, 1, 0, 10, false, 1⟩ 1 1 1
              (mapMat 1 (fun _ => 1)) (mapMat 1 (fun _ => 2))
              (fun _ => 1/2)) i0)) :=
  c8_zero_iterations ⟨2, 0, 1/2, 1, 1, 0, 10, false, 1⟩
    ⟨[1, 1], fun _ => 1⟩ ⟨[1, 1], fun _ => 2⟩ (fun _ => 1/2)
    rfl rfl rfl rfl

end PSONMF
